import Mathlib

/-!
Luna ltorrent-server: the torrent registry of `Torrents` (torrents.cpp).

A shallow embedding of `contrib/ltorrent-server/server/torrents.cpp`.

* `std::map` containers are association lists kept in key order; the
  operations used by the source (`count`, `insert`, `at`, in-order iteration)
  are defined on every list, and well-formedness (`mapWF`, no key twice) is a
  separate predicate.
* `std::chrono::system_clock::now()` is the `k`-th reading `clk k` of a clock;
  the state counts the readings taken so far (`clockReads`).
* Everything the process does to the outside world (mutex, subprocess,
  descriptor parsing, engine submission, anomaly log line) is appended to
  `trace`.
* The outside world is a parameter: the directory listing, the outcome of
  libtorrent's parser for each file name, the result of the `Runner`.
* `Torrents::update` is declared `bool` and has no `return` statement:
  `updateBody` is the state in which control reaches the end of its body, and
  `update` itself ends in `CallEnd.flowedOffEnd`, never in `CallEnd.returned`.
-/

namespace Luna

/-! ## Data model -/

/-- The 20-byte digest `libtorrent::sha1_hash`, read as a number. -/
abbrev sha1_hash := Nat

/-- A `std::chrono::system_clock::time_point`. -/
abbrev timeStamp_t := Nat

/-- The part of `libtorrent::torrent_info` the registry depends on; the name
and the file list only reach the log. -/
structure torrent_info where
  info_hash : sha1_hash
deriving DecidableEq, Repr

/-- Modelled from the spec: torrents.hpp, which declares `localFile_t`, is not
among the sources; the fields are those read in `updateLocalFiles_`
(a parsed descriptor together with its source file name). -/
structure localFile_t where
  filename : String
  torrent_info : torrent_info
deriving DecidableEq, Repr

/-- Modelled from the spec: torrents.hpp, which declares `lunaTorrent_t`, is
not among the sources; the fields are those printed by `operator<<` and
initialised by `{filename, now, false, false}` (the spec's TorrentRecord:
descriptorFilename, lastSeen, isRegistered, isSeeding). -/
structure lunaTorrent_t where
  torrentFile : String
  timeStamp : timeStamp_t
  isInLuna : Bool
  isSeeding : Bool
deriving DecidableEq, Repr

/-! ## `std::map` as an association list in key order -/

/-- `std::map::count`: 1 when some entry has key `k`, else 0. -/
def mapCount {κ β : Type} [DecidableEq κ] : List (κ × β) → κ → Nat
  | [], _ => 0
  | (k', _) :: rest, k => if k' = k then 1 else mapCount rest k

/-- `std::map::find`: the value stored under `k`, if any. -/
def mapFind {κ β : Type} [DecidableEq κ] : List (κ × β) → κ → Option β
  | [], _ => none
  | (k', v) :: rest, k => if k' = k then some v else mapFind rest k

/-- `std::map::insert`: puts `(k, v)` at its place in key order; an entry
already stored under `k` is kept and nothing is inserted. -/
def mapInsert {κ β : Type} [DecidableEq κ] [LT κ] [DecidableRel (fun a b : κ => a < b)]
    (k : κ) (v : β) : List (κ × β) → List (κ × β)
  | [] => [(k, v)]
  | (k', v') :: rest =>
    if k < k' then (k, v) :: (k', v') :: rest
    else if k' = k then (k', v') :: rest
    else (k', v') :: mapInsert k v rest

/-- The assignment `m.at(k) = v`: overwrites the value stored under `k`. -/
def mapAssign {κ β : Type} [DecidableEq κ] (k : κ) (v : β) : List (κ × β) → List (κ × β)
  | [] => []
  | (k', v') :: rest =>
    if k' = k then (k', v) :: rest else (k', v') :: mapAssign k v rest

/-- The keys of a map, in iteration order. -/
def mapKeys {κ β : Type} (m : List (κ × β)) : List κ := m.map Prod.fst

/-- Well-formedness of a map: no key occurs twice. -/
def mapWF {κ β : Type} (m : List (κ × β)) : Prop := (mapKeys m).Nodup

/-- Modelled from the spec: torrents.hpp, which declares `torrentsList_t`, is
not among the sources; it is used as a map from content identity to record
(`count`, `insert`, iteration over `first`/`second`). -/
abbrev torrentsList_t := List (sha1_hash × lunaTorrent_t)

/-! ## Observable events -/

/-- What the process does to the outside world. `reparse` and
`async_add_torrent` carry the registry key of the record being processed; the
engine itself only sees the parsed `torrent_info`. -/
inductive Event where
  | lock
  | unlock
  | readDirectory
  | exec
  | parse (f : String)
  | reparse (key : sha1_hash) (f : String)
  | async_add_torrent (key : sha1_hash) (ti : torrent_info)
  | anomaly (f : String)
deriving DecidableEq, Repr

/-- The result of `helpers::Runner` after `exec()`. -/
structure Runner where
  rc : Int
  out : String
  err : String
deriving DecidableEq, Repr

/-- What is fixed for the life of the process: the constant
`TORRENT_FILE_EXTENSION`, `helpers::splitString`, and the readings of
`system_clock::now()`. -/
structure Env where
  TORRENT_FILE_EXTENSION : String
  splitString : String → List String
  clk : Nat → timeStamp_t

/-- The mutable members of `Torrents`, with the number of clock readings taken
and the trace of events so far. -/
structure Torrents where
  torrents_ : torrentsList_t
  lastCheckedLuna_ : timeStamp_t
  clockReads : Nat
  trace : List Event
deriving DecidableEq, Repr

/-- The state after the constructor: empty registry, nothing done yet. -/
def Torrents.initial : Torrents :=
  { torrents_ := [], lastCheckedLuna_ := 0, clockReads := 0, trace := [] }

/-! ## `parseTorrentFile_` -/

/-- The two screening tests of `parseTorrentFile_`: the name is at least as
long as the suffix, and `f.compare(f.size()-suf_len, npos, EXT) == 0`. The
characters of a `std::string` are the characters of the Lean string. -/
def endsWithExtension (ext f : String) : Bool :=
  if f.length < ext.length then false
  else decide (f.data.drop (f.length - ext.length) = ext.data)

/-- `Torrents::parseTorrentFile_`: `none` stands for the thrown
`LtorrentsException`; `ti` is the outcome of `libtorrent::torrent_info(f, 0)`. -/
def parseTorrentFile_ (ext : String) (ti : String → Option torrent_info) (f : String) :
    Option localFile_t :=
  if f.length < ext.length then none
  else if f.data.drop (f.length - ext.length) ≠ ext.data then none
  else match ti f with
    | some file_info => some { filename := f, torrent_info := file_info }
    | none => none

/-- The file-parse events of one call of `parseTorrentFile_`: libtorrent is
called only on names that pass the screen. -/
def parseTorrentFileEvents (ext f : String) : List Event :=
  if endsWithExtension ext f then [Event.parse f] else []

/-! ## `updateLocalFiles_` -/

/-- The first loop of `updateLocalFiles_`: the files that parse, in listing
order. -/
def scanFiles (ext : String) (ti : String → Option torrent_info) :
    List String → List localFile_t
  | [] => []
  | f :: rest =>
    match parseTorrentFile_ ext ti f with
    | some localFile => localFile :: scanFiles ext ti rest
    | none => scanFiles ext ti rest

/-- The events of the first loop of `updateLocalFiles_`. -/
def scanEvents (ext : String) : List String → List Event
  | [] => []
  | f :: rest => parseTorrentFileEvents ext f ++ scanEvents ext rest

/-- The second loop of `updateLocalFiles_` ("Populate torrents_"), on the
registry and the number of clock readings. -/
def populate (clk : Nat → timeStamp_t) :
    List localFile_t → torrentsList_t × Nat → torrentsList_t × Nat
  | [], s => s
  | localFile :: rest, (m, n) =>
    if mapCount m localFile.torrent_info.info_hash ≠ 0 then populate clk rest (m, n)
    else
      populate clk rest
        (mapInsert localFile.torrent_info.info_hash
          { torrentFile := localFile.filename, timeStamp := clk n,
            isInLuna := false, isSeeding := false } m, n + 1)

/-- `Torrents::updateLocalFiles_`. -/
def updateLocalFiles_ (env : Env) (files : List String)
    (ti : String → Option torrent_info) (s : Torrents) : Torrents :=
  let localFiles := scanFiles env.TORRENT_FILE_EXTENSION ti files
  let p := populate env.clk localFiles (s.torrents_, s.clockReads)
  { s with
    torrents_ := p.1
    clockReads := p.2
    trace := s.trace ++ [Event.readDirectory] ++ scanEvents env.TORRENT_FILE_EXTENSION files
      ++ [Event.lock, Event.unlock] }

/-! ## `updateLunaFiles_` -/

/-- The loop "convert list to map" of `updateLunaFiles_`. -/
def buildLunaConfiguredTorrents (ext : String) :
    List String → List (String × Bool) → List (String × Bool)
  | [], luna => luna
  | line :: rest, luna =>
    buildLunaConfiguredTorrents ext rest (mapInsert (line ++ ext) false luna)

/-- The loop "update torrents_" of `updateLunaFiles_`, on the registry, the
map of configured torrents and the number of clock readings. -/
def reconcileLoop (clk : Nat → timeStamp_t) :
    torrentsList_t → List (String × Bool) → Nat → torrentsList_t × List (String × Bool) × Nat
  | [], luna, n => ([], luna, n)
  | (k, r) :: rest, luna, n =>
    if mapCount luna r.torrentFile = 0 then
      let res := reconcileLoop clk rest luna n
      ((k, { r with isInLuna := false }) :: res.1, res.2.1, res.2.2)
    else
      let res := reconcileLoop clk rest (mapAssign r.torrentFile true luna) (n + 1)
      ((k, { r with isInLuna := true, timeStamp := clk n }) :: res.1, res.2.1, res.2.2)

/-- The final loop of `updateLunaFiles_`: one error line for every configured
torrent whose flag is still false. -/
def reportMissing : List (String × Bool) → List Event
  | [] => []
  | (f, matched) :: rest =>
    if !matched then Event.anomaly f :: reportMissing rest else reportMissing rest

/-- Lines 171-205 of `updateLunaFiles_`: what is done with the lines of the
command output once the command has succeeded with non-empty output. -/
def reconcile (env : Env) (lines : List String) (s : Torrents) : Torrents :=
  let luna := buildLunaConfiguredTorrents env.TORRENT_FILE_EXTENSION lines []
  let res := reconcileLoop env.clk s.torrents_ luna s.clockReads
  { s with
    torrents_ := res.1
    clockReads := res.2.2
    trace := s.trace ++ [Event.lock, Event.unlock] ++ reportMissing res.2.1 }

/-- `Torrents::updateLunaFiles_`; `r` is the `Runner` after `r.exec()`. -/
def updateLunaFiles_ (env : Env) (r : Runner) (s : Torrents) : Torrents :=
  let s1 := { s with trace := s.trace ++ [Event.exec] }
  if r.rc ≠ 0 then s1
  else if r.out = "" then s1
  else
    reconcile env (env.splitString r.out)
      { s1 with lastCheckedLuna_ := env.clk s1.clockReads, clockReads := s1.clockReads + 1 }

/-! ## `seedOSImages_` -/

/-- The loop of `seedOSImages_`; `ti` is the outcome of
`new libtorrent::torrent_info(torrentFile, ec)` (`none` when `ec` is set). -/
def seedLoop (ti : String → Option torrent_info) :
    torrentsList_t → torrentsList_t × List Event
  | [] => ([], [])
  | (k, r) :: rest =>
    let res := seedLoop ti rest
    if r.isSeeding then ((k, r) :: res.1, res.2)
    else if !r.isInLuna then ((k, r) :: res.1, res.2)
    else match ti r.torrentFile with
      | none => ((k, r) :: res.1, Event.reparse k r.torrentFile :: res.2)
      | some p_ti =>
        ((k, { r with isSeeding := true }) :: res.1,
          Event.reparse k r.torrentFile :: Event.async_add_torrent k p_ti :: res.2)

/-- `Torrents::seedOSImages_`. -/
def seedOSImages_ (ti : String → Option torrent_info) (s : Torrents) : Torrents :=
  let res := seedLoop ti s.torrents_
  { s with
    torrents_ := res.1
    trace := s.trace ++ [Event.lock] ++ res.2 ++ [Event.unlock] }

/-- `Torrents::deleteOldTorrents_`: the body is empty. -/
def deleteOldTorrents_ (s : Torrents) : Torrents := s

/-! ## `update` -/

/-- What the outside world presents during one cycle: the directory listing,
the outcome of libtorrent's parser during the scan, the finished `Runner`, and
the outcome of libtorrent's parser during seeding. -/
structure CycleInput where
  files : List String
  scanParse : String → Option torrent_info
  runner : Runner
  seedParse : String → Option torrent_info

/-- The statements of the body of `Torrents::update` (lines 65-68): the four
phases in order. The result is the state in which control reaches the closing
brace of the body. -/
def updateBody (env : Env) (inp : CycleInput) (s : Torrents) : Torrents :=
  deleteOldTorrents_
    (seedOSImages_ inp.seedParse
      (updateLunaFiles_ env inp.runner
        (updateLocalFiles_ env inp.files inp.scanParse s)))

/-- One run of one of the four phases, with what the outside world presents
to it. -/
inductive PhaseRun where
  | updateLocalFiles (files : List String) (ti : String → Option torrent_info)
  | updateLunaFiles (r : Runner)
  | seedOSImages (ti : String → Option torrent_info)
  | deleteOldTorrents

/-- The effect of one run of a phase. -/
def runPhase (env : Env) : PhaseRun → Torrents → Torrents
  | PhaseRun.updateLocalFiles files ti, s => updateLocalFiles_ env files ti s
  | PhaseRun.updateLunaFiles r, s => updateLunaFiles_ env r s
  | PhaseRun.seedOSImages ti, s => seedOSImages_ ti s
  | PhaseRun.deleteOldTorrents, s => deleteOldTorrents_ s

/-- A finite sequence of runs of phases, first to last. -/
def runPhases (env : Env) : List PhaseRun → Torrents → Torrents
  | [], s => s
  | ph :: rest, s => runPhases env rest (runPhase env ph s)

/-- The phase runs of the body of `update`, in order. -/
def cyclePhases (inp : CycleInput) : List PhaseRun :=
  [PhaseRun.updateLocalFiles inp.files inp.scanParse, PhaseRun.updateLunaFiles inp.runner,
   PhaseRun.seedOSImages inp.seedParse, PhaseRun.deleteOldTorrents]

/-- The keys on whose behalf `async_add_torrent` was called, in order. -/
def submittedKeys : List Event → List sha1_hash
  | [] => []
  | Event.async_add_torrent k _ :: rest => k :: submittedKeys rest
  | _ :: rest => submittedKeys rest

/-- The content identities handed to `async_add_torrent`, in order. -/
def submittedHashes : List Event → List sha1_hash
  | [] => []
  | Event.async_add_torrent _ p_ti :: rest => p_ti.info_hash :: submittedHashes rest
  | _ :: rest => submittedHashes rest

/-- The registry keys whose descriptor was re-parsed in `seedOSImages_`. -/
def reparsedKeys : List Event → List sha1_hash
  | [] => []
  | Event.reparse k _ :: rest => k :: reparsedKeys rest
  | _ :: rest => reparsedKeys rest

/-- A record is a seed candidate: registered and not yet seeding. -/
def isCandidate (r : lunaTorrent_t) : Bool := r.isInLuna && !r.isSeeding

/-! ## Sample data -/

/-- A sample line splitter: `cur` holds the current line, reversed; empty
lines are dropped. -/
def splitLinesAux : List Char → List Char → List String
  | [], cur => if cur.isEmpty then [] else [String.mk cur.reverse]
  | c :: rest, cur =>
    if c = Char.ofNat 10 then
      (if cur.isEmpty then splitLinesAux rest [] else String.mk cur.reverse :: splitLinesAux rest [])
    else splitLinesAux rest (c :: cur)

/-- A sample environment: suffix ".torrent", one identifier per line, and a
clock whose `k`-th reading is `100 + k`. -/
def env0 : Env :=
  { TORRENT_FILE_EXTENSION := ".torrent"
    splitString := fun s => splitLinesAux s.data []
    clk := fun k => 100 + k }

/-- Sample parser outcome: "a.torrent" has identity 1, "b.torrent" has
identity 2, nothing else parses. -/
def parseAB (f : String) : Option torrent_info :=
  if f = "a.torrent" then some { info_hash := 1 }
  else if f = "b.torrent" then some { info_hash := 2 }
  else none

/-- Sample parser outcome after "b.torrent" has been overwritten with a copy
of "a.torrent": both have identity 1. -/
def parseCopied (f : String) : Option torrent_info :=
  if f = "a.torrent" then some { info_hash := 1 }
  else if f = "b.torrent" then some { info_hash := 1 }
  else none

/-- A sample cycle: the directory holds a.torrent and b.torrent, the
authority reports `a`. -/
def cycleA : CycleInput :=
  { files := ["a.torrent", "b.torrent"], scanParse := parseAB,
    runner := { rc := 0, out := "a\n", err := "" }, seedParse := parseAB }

/-- A sample cycle: b.torrent is now a copy of a.torrent, and the authority
reports `b`. -/
def cycleCopied : CycleInput :=
  { files := ["a.torrent", "b.torrent"], scanParse := parseCopied,
    runner := { rc := 0, out := "b\n", err := "" }, seedParse := parseCopied }

/-- The registry of the spec's reconciliation example: A unregistered, B
registered. -/
def regAB : torrentsList_t :=
  [(1, { torrentFile := "A.torrent", timeStamp := 5, isInLuna := false, isSeeding := false }),
   (2, { torrentFile := "B.torrent", timeStamp := 6, isInLuna := true, isSeeding := false })]

/-! ## Predicates of the statements and further sample data -/

/-- What the loop "update torrents_" does to one record, given the configured
torrents `luna` and the window `lo ≤ j < hi` of clock readings of the loop. -/
def reconciled (clk : Nat → timeStamp_t) (luna : List (String × Bool)) (lo hi : Nat)
    (a b : lunaTorrent_t) : Prop :=
  b.torrentFile = a.torrentFile ∧ b.isSeeding = a.isSeeding ∧
  (b.isInLuna = true ↔ a.torrentFile ∈ mapKeys luna) ∧
  (a.torrentFile ∈ mapKeys luna → ∃ j, lo ≤ j ∧ j < hi ∧ b.timeStamp = clk j) ∧
  (a.torrentFile ∉ mapKeys luna → b.timeStamp = a.timeStamp)

/-- Sample descriptors: two files with distinct identities. -/
def lfsAB : List localFile_t :=
  [{ filename := "a.torrent", torrent_info := { info_hash := 7 } },
   { filename := "b.torrent", torrent_info := { info_hash := 3 } }]

/-- Sample descriptors: two files with the same identity. -/
def lfsDup : List localFile_t :=
  [{ filename := "a.torrent", torrent_info := { info_hash := 1 } },
   { filename := "b.torrent", torrent_info := { info_hash := 1 } }]

/-- What the loop of `seedOSImages_` does to one record. -/
def seedRecord (ti : String → Option torrent_info) (r : lunaTorrent_t) : lunaTorrent_t :=
  if isCandidate r && (ti r.torrentFile).isSome then { r with isSeeding := true } else r

/-- Sample registry for the seeding phase: 1 is a candidate whose file parses,
2 is a candidate whose file does not, 3 is seeding already, 4 is not
registered. -/
def regSeed : torrentsList_t :=
  [(1, { torrentFile := "a.torrent", timeStamp := 5, isInLuna := true, isSeeding := false }),
   (2, { torrentFile := "b.torrent", timeStamp := 5, isInLuna := true, isSeeding := false }),
   (3, { torrentFile := "c.torrent", timeStamp := 5, isInLuna := true, isSeeding := true }),
   (4, { torrentFile := "d.torrent", timeStamp := 5, isInLuna := false, isSeeding := false })]

/-- Sample parser outcome: every file parses to identity 1 except
"b.torrent", which is rejected. -/
def tiSample (f : String) : Option torrent_info :=
  if f = "b.torrent" then none else some { info_hash := 1 }

/-- The record `b` has the file name of `a`, and is seeding if `a` is. -/
def keeps (a b : lunaTorrent_t) : Prop :=
  b.torrentFile = a.torrentFile ∧ (a.isSeeding = true → b.isSeeding = true)

/-- The invariant of the cycle: no key twice in the registry, no key submitted
twice, and every key that was submitted has a record marked seeding. -/
def seedInv (s : Torrents) : Prop :=
  mapWF s.torrents_ ∧ (submittedKeys s.trace).Nodup ∧
  ∀ k ∈ submittedKeys s.trace, ∃ r, mapFind s.torrents_ k = some r ∧ r.isSeeding = true

/-- The file names reported as "presents in Luna but does not exist on disk",
in order. -/
def anomalies : List Event → List String
  | [] => []
  | Event.anomaly f :: rest => f :: anomalies rest
  | _ :: rest => anomalies rest

/-- External I/O in the sense of the locking discipline: subprocess
execution, descriptor file parse, engine submission. -/
def isExternalIO : Event → Bool
  | Event.exec => true
  | Event.parse _ => true
  | Event.reparse _ _ => true
  | Event.async_add_torrent _ _ => true
  | _ => false

/-- The locking discipline on a trace: no external I/O between an acquire
of the registry lock and the next release; `held` tells whether the lock is
held at the start of the trace. -/
def lockDiscipline : Bool → List Event → Bool
  | _, [] => true
  | _, Event.lock :: rest => lockDiscipline true rest
  | _, Event.unlock :: rest => lockDiscipline false rest
  | held, e :: rest => !(held && isExternalIO e) && lockDiscipline held rest

/-- A sample cycle: the scan finds a.torrent (identity 1) and b.torrent
(identity 2), the authority reports `a` and `b`, and b.torrent is overwritten
with a copy of a.torrent before the seeding phase re-parses it. -/
def cycleRace : CycleInput :=
  { files := ["a.torrent", "b.torrent"], scanParse := parseAB,
    runner := { rc := 0, out := "a\nb\n", err := "" }, seedParse := parseCopied }

theorem mapCount_ne_zero_iff {κ β : Type} [DecidableEq κ] (m : List (κ × β)) (k : κ) :
    mapCount m k ≠ 0 ↔ k ∈ mapKeys m := by
  induction m with
  | nil => simp [mapCount, mapKeys]
  | cons e rest ih =>
    obtain ⟨k', v'⟩ := e
    by_cases h : k' = k
    · simp [mapCount, mapKeys, h]
    · have h' : ¬ k = k' := fun e => h e.symm
      simpa [mapCount, mapKeys, h, h'] using ih

theorem mapCount_eq_zero_iff {κ β : Type} [DecidableEq κ] (m : List (κ × β)) (k : κ) :
    mapCount m k = 0 ↔ k ∉ mapKeys m := by
  rw [← mapCount_ne_zero_iff]; exact not_not.symm

theorem mapFind_eq_none_iff {κ β : Type} [DecidableEq κ] (m : List (κ × β)) (k : κ) :
    mapFind m k = none ↔ k ∉ mapKeys m := by
  induction m with
  | nil => simp [mapFind, mapKeys]
  | cons e rest ih =>
    obtain ⟨k', v'⟩ := e
    by_cases h : k' = k
    · simp [mapFind, mapKeys, h]
    · have h' : ¬ k = k' := fun e => h e.symm
      simpa [mapFind, mapKeys, h, h'] using ih

theorem mapFind_mem {κ β : Type} [DecidableEq κ] (m : List (κ × β)) (k : κ) (v : β)
    (h : mapFind m k = some v) : (k, v) ∈ m := by
  induction m with
  | nil => simp [mapFind] at h
  | cons e rest ih =>
    obtain ⟨k', v'⟩ := e
    by_cases hk : k' = k
    · simp [mapFind, hk] at h
      simp [hk, h]
    · simp [mapFind, hk] at h
      exact List.mem_cons_of_mem _ (ih h)

theorem mapFind_of_mem {κ β : Type} [DecidableEq κ] (m : List (κ × β)) (k : κ) (v : β)
    (hwf : mapWF m) (h : (k, v) ∈ m) : mapFind m k = some v := by
  induction m with
  | nil => simp at h
  | cons e rest ih =>
    obtain ⟨k', v'⟩ := e
    simp only [mapWF, mapKeys, List.map_cons, List.nodup_cons] at hwf
    rcases List.mem_cons.mp h with h1 | h1
    · cases h1; simp [mapFind]
    · have hne : k' ≠ k := by
        intro e; subst e
        exact hwf.1 (List.mem_map.mpr ⟨(k', v), h1, rfl⟩)
      simp only [mapFind, hne, if_false]
      exact ih hwf.2 h1

theorem mapKeys_mapAssign {κ β : Type} [DecidableEq κ] (k : κ) (v : β) (m : List (κ × β)) :
    mapKeys (mapAssign k v m) = mapKeys m := by
  induction m with
  | nil => rfl
  | cons e rest ih =>
    obtain ⟨k', v'⟩ := e
    by_cases h : k' = k
    · simp [mapAssign, mapKeys, h]
    · simp only [mapKeys] at ih
      simp [mapAssign, mapKeys, h, ih]

theorem mapCount_mapAssign {κ β : Type} [DecidableEq κ] (k : κ) (v : β) (m : List (κ × β))
    (k' : κ) : mapCount (mapAssign k v m) k' = mapCount m k' := by
  induction m with
  | nil => rfl
  | cons e rest ih =>
    obtain ⟨k1, v1⟩ := e
    by_cases h : k1 = k
    · simp [mapAssign, mapCount, h]
    · simp [mapAssign, mapCount, h, ih]

theorem mapKeys_mapInsert_perm {κ β : Type} [DecidableEq κ] [LT κ]
    [DecidableRel (fun a b : κ => a < b)] (k : κ) (v : β) (m : List (κ × β))
    (h : k ∉ mapKeys m) : (mapKeys (mapInsert k v m)).Perm (k :: mapKeys m) := by
  induction m with
  | nil => simp [mapInsert, mapKeys]
  | cons e rest ih =>
    obtain ⟨k', v'⟩ := e
    have hk : k' ≠ k := by
      intro e; apply h; simp [mapKeys, e]
    have hrest : k ∉ mapKeys rest := by
      intro hm; apply h; simp only [mapKeys] at hm; simp [mapKeys, hm]
    by_cases hlt : k < k'
    · simp [mapInsert, hlt, mapKeys]
    · simp only [mapInsert, hlt, hk, if_false, mapKeys, List.map_cons]
      exact ((ih hrest).cons k').trans (List.Perm.swap k k' _)

theorem mem_mapKeys_mapInsert {κ β : Type} [DecidableEq κ] [LT κ]
    [DecidableRel (fun a b : κ => a < b)] (k : κ) (v : β) (m : List (κ × β)) (k' : κ) :
    k' ∈ mapKeys (mapInsert k v m) ↔ k' = k ∨ k' ∈ mapKeys m := by
  induction m with
  | nil => simp [mapInsert, mapKeys]
  | cons e rest ih =>
    obtain ⟨k1, v1⟩ := e
    by_cases hlt : k < k1
    · simp [mapInsert, hlt, mapKeys]
    · by_cases hk : k1 = k
      · subst hk
        simp [mapInsert, hlt, mapKeys]
      · simp only [mapKeys] at ih
        simp only [mapInsert, hlt, hk, if_false, mapKeys, List.map_cons, List.mem_cons, ih]
        tauto

theorem mapWF_mapInsert {κ β : Type} [DecidableEq κ] [LT κ]
    [DecidableRel (fun a b : κ => a < b)] (k : κ) (v : β) (m : List (κ × β))
    (h : k ∉ mapKeys m) (hwf : mapWF m) : mapWF (mapInsert k v m) := by
  unfold mapWF at *
  exact (mapKeys_mapInsert_perm k v m h).nodup_iff.mpr (List.nodup_cons.mpr ⟨h, hwf⟩)

theorem mapFind_mapInsert_of_ne {κ β : Type} [DecidableEq κ] [LT κ]
    [DecidableRel (fun a b : κ => a < b)] (k : κ) (v : β) (m : List (κ × β)) (k' : κ)
    (h : k ≠ k') : mapFind (mapInsert k v m) k' = mapFind m k' := by
  induction m with
  | nil => simp [mapInsert, mapFind, h]
  | cons e rest ih =>
    obtain ⟨k1, v1⟩ := e
    by_cases hlt : k < k1
    · simp [mapInsert, hlt, mapFind, h]
    · by_cases hk : k1 = k
      · subst hk
        simp [mapInsert, hlt, mapFind]
      · simp [mapInsert, hlt, hk, mapFind, ih]

theorem mapFind_mapInsert_self {κ β : Type} [DecidableEq κ] [LT κ]
    [DecidableRel (fun a b : κ => a < b)] (k : κ) (v : β) (m : List (κ × β))
    (h : k ∉ mapKeys m) : mapFind (mapInsert k v m) k = some v := by
  induction m with
  | nil => simp [mapInsert, mapFind]
  | cons e rest ih =>
    obtain ⟨k1, v1⟩ := e
    have hk : k1 ≠ k := by
      intro e; apply h; simp [mapKeys, e]
    have hrest : k ∉ mapKeys rest := by
      intro hm; apply h; simp only [mapKeys] at hm; simp [mapKeys, hm]
    by_cases hlt : k < k1
    · simp [mapInsert, hlt, mapFind]
    · simp [mapInsert, hlt, hk, mapFind, ih hrest]

/-- Two maps related entry by entry, with equal keys, have related lookups. -/
theorem mapFind_forall₂ {κ β : Type} [DecidableEq κ] {R : β → β → Prop}
    {m m' : List (κ × β)}
    (h : List.Forall₂ (fun a b => b.1 = a.1 ∧ R a.2 b.2) m m') (k : κ) (v : β)
    (hf : mapFind m k = some v) : ∃ v', mapFind m' k = some v' ∧ R v v' := by
  induction h with
  | nil => simp [mapFind] at hf
  | @cons a b l l' hab _ ih =>
    obtain ⟨k1, v1⟩ := a
    obtain ⟨k2, v2⟩ := b
    simp only at hab
    obtain ⟨hk, hR⟩ := hab
    subst hk
    by_cases hkk : k2 = k
    · simp only [mapFind, hkk, if_true, Option.some.injEq] at hf ⊢
      subst hf
      exact ⟨v2, rfl, hR⟩
    · simp only [mapFind, hkk, if_false] at hf ⊢
      exact ih hf

theorem mapKeys_forall₂ {κ β : Type} {R : β → β → Prop} {m m' : List (κ × β)}
    (h : List.Forall₂ (fun a b => b.1 = a.1 ∧ R a.2 b.2) m m') : mapKeys m' = mapKeys m := by
  induction h with
  | nil => rfl
  | @cons a b l l' hab _ ih =>
    simp only [mapKeys] at ih
    simp [mapKeys, hab.1, ih]

/-! ## The reconciliation step of `updateLunaFiles_` -/

theorem mem_mapKeys_buildLunaConfiguredTorrents (ext : String) (lines : List String) :
    ∀ (luna : List (String × Bool)) (f : String),
      f ∈ mapKeys (buildLunaConfiguredTorrents ext lines luna) ↔
        f ∈ lines.map (fun line => line ++ ext) ∨ f ∈ mapKeys luna := by
  induction lines with
  | nil => intro luna f; simp [buildLunaConfiguredTorrents]
  | cons line rest ih =>
    intro luna f
    simp only [buildLunaConfiguredTorrents, ih, mem_mapKeys_mapInsert, List.map_cons,
      List.mem_cons]
    tauto

theorem reconciled_mono {clk : Nat → timeStamp_t} {luna luna' : List (String × Bool)}
    {lo lo' hi : Nat} {a b : lunaTorrent_t} (hk : mapKeys luna' = mapKeys luna)
    (hlo : lo ≤ lo') (h : reconciled clk luna' lo' hi a b) : reconciled clk luna lo hi a b := by
  unfold reconciled at *
  rw [hk] at h
  obtain ⟨h1, h2, h3, h4, h5⟩ := h
  refine ⟨h1, h2, h3, ?_, h5⟩
  intro hm
  obtain ⟨j, hj1, hj2, hj3⟩ := h4 hm
  exact ⟨j, le_trans hlo hj1, hj2, hj3⟩

theorem reconcileLoop_spec (clk : Nat → timeStamp_t) (m : torrentsList_t) :
    ∀ (luna : List (String × Bool)) (n : Nat),
      n ≤ (reconcileLoop clk m luna n).2.2 ∧
      mapKeys (reconcileLoop clk m luna n).2.1 = mapKeys luna ∧
      List.Forall₂
        (fun a b => b.1 = a.1 ∧ reconciled clk luna n (reconcileLoop clk m luna n).2.2 a.2 b.2)
        m (reconcileLoop clk m luna n).1 := by
  induction m with
  | nil => intro luna n; simp [reconcileLoop]
  | cons e rest ih =>
    intro luna n
    obtain ⟨k, r⟩ := e
    by_cases hc : mapCount luna r.torrentFile = 0
    · have hnot : r.torrentFile ∉ mapKeys luna := (mapCount_eq_zero_iff _ _).mp hc
      obtain ⟨h1, h2, h3⟩ := ih luna n
      simp only [reconcileLoop, hc, if_true]
      refine ⟨h1, h2, List.Forall₂.cons ⟨rfl, ?_⟩ h3⟩
      simp [reconciled, hnot]
    · have hin : r.torrentFile ∈ mapKeys luna := (mapCount_ne_zero_iff _ _).mp hc
      obtain ⟨h1, h2, h3⟩ := ih (mapAssign r.torrentFile true luna) (n + 1)
      have hk := mapKeys_mapAssign r.torrentFile true luna
      simp only [reconcileLoop, hc, if_false]
      refine ⟨by omega, h2.trans hk, List.Forall₂.cons ⟨rfl, ?_⟩ ?_⟩
      · simp only [reconciled, hin, true_and, not_true_eq_false, iff_true, forall_true_left,
          false_implies, and_true]
        exact ⟨n, le_refl n, by omega, rfl⟩
      · exact h3.imp (fun a b hab => ⟨hab.1, reconciled_mono hk (Nat.le_succ n) hab.2⟩)

/-- The reconciliation step relates the registry before and after entry by
entry. -/
theorem reconcile_forall₂ (env : Env) (lines : List String) (s : Torrents) :
    List.Forall₂
      (fun a b => b.1 = a.1 ∧
        reconciled env.clk (buildLunaConfiguredTorrents env.TORRENT_FILE_EXTENSION lines [])
          s.clockReads (reconcile env lines s).clockReads a.2 b.2)
      s.torrents_ (reconcile env lines s).torrents_ :=
  (reconcileLoop_spec env.clk s.torrents_ _ s.clockReads).2.2

/-- Claim C1. After the reconciliation step of `updateLunaFiles_` on the lines
`lines` of the command output, every record of the registry is still stored
under its key with the same file name, is marked `isInLuna` exactly when its
file name is one of the expected names (a line followed by the suffix), and
when it is so marked its `timeStamp` is a reading of the clock taken during the
step. -/
theorem reconcile_marks_expected (env : Env) (lines : List String) (s : Torrents)
    (k : sha1_hash) (r : lunaTorrent_t) (h : mapFind s.torrents_ k = some r) :
    ∃ r', mapFind (reconcile env lines s).torrents_ k = some r' ∧
      r'.torrentFile = r.torrentFile ∧
      (r'.isInLuna = true ↔
        r.torrentFile ∈ lines.map (fun line => line ++ env.TORRENT_FILE_EXTENSION)) ∧
      (r'.isInLuna = true →
        ∃ j, s.clockReads ≤ j ∧ j < (reconcile env lines s).clockReads ∧
          r'.timeStamp = env.clk j) := by
  obtain ⟨r', hf, h1, _, h3, h4, _⟩ := mapFind_forall₂ (reconcile_forall₂ env lines s) k r h
  have hmem := mem_mapKeys_buildLunaConfiguredTorrents env.TORRENT_FILE_EXTENSION lines []
    r.torrentFile
  have hnil : r.torrentFile ∉ mapKeys ([] : List (String × Bool)) := by simp [mapKeys]
  refine ⟨r', hf, h1, ?_, ?_⟩
  · rw [h3, hmem]; simp [hnil]
  · intro hin; exact h4 (h3.mp hin)

/-- The spec's example for C1: registry {A: unregistered, B: registered} and
expected {A.torrent}; afterwards A is registered, stamped with the clock
reading of the step, and B is not. -/
theorem reconcile_marks_expected_witness :
    mapFind regAB 1 =
        some { torrentFile := "A.torrent", timeStamp := 5, isInLuna := false, isSeeding := false } ∧
      (reconcile env0 ["A"] { Torrents.initial with torrents_ := regAB }).torrents_ =
        [(1, { torrentFile := "A.torrent", timeStamp := 100, isInLuna := true, isSeeding := false }),
         (2, { torrentFile := "B.torrent", timeStamp := 6, isInLuna := false, isSeeding := false })] ∧
      ∃ r', mapFind (reconcile env0 ["A"] { Torrents.initial with torrents_ := regAB }).torrents_ 1
          = some r' ∧
        r'.torrentFile = "A.torrent" ∧
        (r'.isInLuna = true ↔
          "A.torrent" ∈ ["A"].map (fun line => line ++ env0.TORRENT_FILE_EXTENSION)) ∧
        (r'.isInLuna = true →
          ∃ j, 0 ≤ j ∧
            j < (reconcile env0 ["A"] { Torrents.initial with torrents_ := regAB }).clockReads ∧
            r'.timeStamp = env0.clk j) :=
  ⟨by decide, by decide,
    reconcile_marks_expected env0 ["A"] { Torrents.initial with torrents_ := regAB } 1
      { torrentFile := "A.torrent", timeStamp := 5, isInLuna := false, isSeeding := false }
      (by decide)⟩

/-! ## `updateLunaFiles_`: the two early returns -/

/-- The counterexample to C2: the command exits with code 0 and prints
nothing, and record B of `regAB` is still marked `isInLuna` afterwards. -/
theorem updateLunaFiles_empty_output_keeps_registered :
    ¬ (∀ k r,
        mapFind (updateLunaFiles_ env0 { rc := 0, out := "", err := "" }
          { Torrents.initial with torrents_ := regAB }).torrents_ k = some r →
        r.isInLuna = false) := by
  intro h
  have h2 := h 2
    { torrentFile := "B.torrent", timeStamp := 6, isInLuna := true, isSeeding := false }
    (by decide)
  simp at h2

/-- Claim C2, amended. When the command exits with code 0 and its output is
empty, `updateLunaFiles_` returns before the reconciliation: the registry and
`lastCheckedLuna_` are exactly as before and the clock is not read. -/
theorem updateLunaFiles_empty_output_unchanged (env : Env) (r : Runner) (s : Torrents)
    (hrc : r.rc = 0) (hout : r.out = "") :
    (updateLunaFiles_ env r s).torrents_ = s.torrents_ ∧
      (updateLunaFiles_ env r s).lastCheckedLuna_ = s.lastCheckedLuna_ ∧
      (updateLunaFiles_ env r s).clockReads = s.clockReads ∧
      (updateLunaFiles_ env r s).trace = s.trace ++ [Event.exec] := by
  simp [updateLunaFiles_, hrc, hout]

theorem updateLunaFiles_empty_output_unchanged_witness :
    (updateLunaFiles_ env0 { rc := 0, out := "", err := "" }
        { Torrents.initial with torrents_ := regAB }).torrents_ = regAB ∧
      (updateLunaFiles_ env0 { rc := 0, out := "", err := "" }
        { Torrents.initial with torrents_ := regAB }).lastCheckedLuna_ = 0 ∧
      (updateLunaFiles_ env0 { rc := 0, out := "", err := "" }
        { Torrents.initial with torrents_ := regAB }).clockReads = 0 ∧
      (updateLunaFiles_ env0 { rc := 0, out := "", err := "" }
        { Torrents.initial with torrents_ := regAB }).trace = [] ++ [Event.exec] :=
  updateLunaFiles_empty_output_unchanged env0 { rc := 0, out := "", err := "" }
    { Torrents.initial with torrents_ := regAB } rfl rfl

/-- Claim C3. When the command exits with a nonzero code, `updateLunaFiles_`
leaves the registry exactly as it was (same keys, same four fields of every
record), whatever the captured output and diagnostic text. -/
theorem updateLunaFiles_failure_unchanged (env : Env) (r : Runner) (s : Torrents)
    (hrc : r.rc ≠ 0) : (updateLunaFiles_ env r s).torrents_ = s.torrents_ := by
  simp [updateLunaFiles_, hrc]

theorem updateLunaFiles_failure_unchanged_witness :
    (updateLunaFiles_ env0 { rc := 1, out := "A\nB", err := "no route" }
      { Torrents.initial with torrents_ := regAB }).torrents_ = regAB :=
  updateLunaFiles_failure_unchanged env0 { rc := 1, out := "A\nB", err := "no route" }
    { Torrents.initial with torrents_ := regAB } (by decide)

/-! ## The merge step of `updateLocalFiles_` -/

theorem populate_cons_present (clk : Nat → timeStamp_t) (lf : localFile_t)
    (rest : List localFile_t) (m : torrentsList_t) (n : Nat)
    (hc : mapCount m lf.torrent_info.info_hash ≠ 0) :
    populate clk (lf :: rest) (m, n) = populate clk rest (m, n) := by
  simp only [populate]; exact if_pos hc

theorem populate_cons_absent (clk : Nat → timeStamp_t) (lf : localFile_t)
    (rest : List localFile_t) (m : torrentsList_t) (n : Nat)
    (hc : ¬ mapCount m lf.torrent_info.info_hash ≠ 0) :
    populate clk (lf :: rest) (m, n) =
      populate clk rest
        (mapInsert lf.torrent_info.info_hash
          { torrentFile := lf.filename, timeStamp := clk n,
            isInLuna := false, isSeeding := false } m, n + 1) := by
  simp only [populate]; exact if_neg hc

theorem populate_clockReads_le (clk : Nat → timeStamp_t) (lfs : List localFile_t) :
    ∀ (m : torrentsList_t) (n : Nat), n ≤ (populate clk lfs (m, n)).2 := by
  induction lfs with
  | nil => intro m n; simp [populate]
  | cons lf rest ih =>
    intro m n
    by_cases hc : mapCount m lf.torrent_info.info_hash ≠ 0
    · rw [populate_cons_present clk lf rest m n hc]; exact ih m n
    · rw [populate_cons_absent clk lf rest m n hc]
      exact le_trans (Nat.le_succ n) (ih _ (n + 1))

/-- The merge keeps every record that was there. -/
theorem populate_mapFind_old (clk : Nat → timeStamp_t) (lfs : List localFile_t) :
    ∀ (m : torrentsList_t) (n : Nat) (k : sha1_hash) (r : lunaTorrent_t),
      mapFind m k = some r → mapFind (populate clk lfs (m, n)).1 k = some r := by
  induction lfs with
  | nil => intro m n k r h; simpa [populate] using h
  | cons lf rest ih =>
    intro m n k r h
    by_cases hc : mapCount m lf.torrent_info.info_hash ≠ 0
    · rw [populate_cons_present clk lf rest m n hc]; exact ih m n k r h
    · rw [populate_cons_absent clk lf rest m n hc]
      apply ih
      have hnot : lf.torrent_info.info_hash ∉ mapKeys m :=
        (mapCount_eq_zero_iff _ _).mp (not_not.mp hc)
      have hne : lf.torrent_info.info_hash ≠ k := by
        intro e
        rw [e] at hnot
        have := (mapFind_eq_none_iff m k).mpr hnot
        rw [h] at this
        cases this
      rw [mapFind_mapInsert_of_ne _ _ _ _ hne]
      exact h

/-- The keys after the merge are the old keys and the identities merged. -/
theorem mem_mapKeys_populate (clk : Nat → timeStamp_t) (lfs : List localFile_t) :
    ∀ (m : torrentsList_t) (n : Nat) (k : sha1_hash),
      k ∈ mapKeys (populate clk lfs (m, n)).1 ↔
        k ∈ mapKeys m ∨ ∃ lf ∈ lfs, lf.torrent_info.info_hash = k := by
  induction lfs with
  | nil => intro m n k; simp [populate]
  | cons lf rest ih =>
    intro m n k
    by_cases hc : mapCount m lf.torrent_info.info_hash ≠ 0
    · have hin : lf.torrent_info.info_hash ∈ mapKeys m := (mapCount_ne_zero_iff _ _).mp hc
      rw [populate_cons_present clk lf rest m n hc]
      simp only [ih, List.mem_cons, exists_eq_or_imp]
      constructor
      · rintro (h | h)
        · exact Or.inl h
        · exact Or.inr (Or.inr h)
      · rintro (h | h | h)
        · exact Or.inl h
        · exact Or.inl (h ▸ hin)
        · exact Or.inr h
    · rw [populate_cons_absent clk lf rest m n hc]
      simp only [ih, mem_mapKeys_mapInsert, List.mem_cons, exists_eq_or_imp]
      constructor
      · rintro ((h | h) | h)
        · exact Or.inr (Or.inl h.symm)
        · exact Or.inl h
        · exact Or.inr (Or.inr h)
      · rintro (h | h | h)
        · exact Or.inl (Or.inr h)
        · exact Or.inl (Or.inl h.symm)
        · exact Or.inr h

/-- The merge changes nothing when every identity is already in the registry. -/
theorem populate_of_all_present (clk : Nat → timeStamp_t) (lfs : List localFile_t)
    (m : torrentsList_t) (n : Nat)
    (h : ∀ lf ∈ lfs, lf.torrent_info.info_hash ∈ mapKeys m) :
    populate clk lfs (m, n) = (m, n) := by
  induction lfs with
  | nil => simp [populate]
  | cons lf rest ih =>
    have hc : mapCount m lf.torrent_info.info_hash ≠ 0 :=
      (mapCount_ne_zero_iff _ _).mpr (h lf (List.mem_cons_self _ _))
    rw [populate_cons_present clk lf rest m n hc]
    exact ih (fun lf' hlf' => h lf' (List.mem_cons_of_mem _ hlf'))

/-- The merge keeps the registry well-formed. -/
theorem populate_mapWF (clk : Nat → timeStamp_t) (lfs : List localFile_t) :
    ∀ (m : torrentsList_t) (n : Nat), mapWF m → mapWF (populate clk lfs (m, n)).1 := by
  induction lfs with
  | nil => intro m n h; simpa [populate] using h
  | cons lf rest ih =>
    intro m n h
    by_cases hc : mapCount m lf.torrent_info.info_hash ≠ 0
    · rw [populate_cons_present clk lf rest m n hc]; exact ih m n h
    · rw [populate_cons_absent clk lf rest m n hc]
      apply ih
      exact mapWF_mapInsert _ _ _ ((mapCount_eq_zero_iff _ _).mp (not_not.mp hc)) h

/-- Claim C4. Running the merge step of `updateLocalFiles_` a second time with
the same descriptors, under any clock and after any number of clock readings,
returns the registry of the first run unchanged and reads no clock; and a
registry without duplicate keys has none after the merge. -/
theorem populate_idempotent (clk clk' : Nat → timeStamp_t) (lfs : List localFile_t)
    (m : torrentsList_t) (n n' : Nat) :
    populate clk' lfs ((populate clk lfs (m, n)).1, n') = ((populate clk lfs (m, n)).1, n') ∧
      (mapWF m → mapWF (populate clk lfs (m, n)).1) := by
  refine ⟨populate_of_all_present clk' lfs _ n' ?_, populate_mapWF clk lfs m n⟩
  intro lf hlf
  exact (mem_mapKeys_populate clk lfs m n _).mpr (Or.inr ⟨lf, hlf, rfl⟩)

theorem populate_idempotent_witness :
    populate (fun _ => 0) lfsAB ((populate env0.clk lfsAB (regAB, 0)).1, 9) =
        ((populate env0.clk lfsAB (regAB, 0)).1, 9) ∧
      mapWF regAB ∧ mapWF (populate env0.clk lfsAB (regAB, 0)).1 :=
  ⟨(populate_idempotent env0.clk (fun _ => 0) lfsAB regAB 0 9).1,
    by unfold mapWF; decide,
    (populate_idempotent env0.clk (fun _ => 0) lfsAB regAB 0 9).2 (by unfold mapWF; decide)⟩

/-- An identity that was absent is stored, after the merge, with the file name
of the first descriptor of the list that has it, the clock reading taken at its
insertion, and both flags false. -/
theorem populate_mapFind_new (clk : Nat → timeStamp_t) (lfs : List localFile_t) :
    ∀ (m : torrentsList_t) (n : Nat) (k : sha1_hash) (lf : localFile_t),
      k ∉ mapKeys m →
      lfs.find? (fun d => decide (d.torrent_info.info_hash = k)) = some lf →
      ∃ j, n ≤ j ∧ j < (populate clk lfs (m, n)).2 ∧
        mapFind (populate clk lfs (m, n)).1 k =
          some { torrentFile := lf.filename, timeStamp := clk j,
                 isInLuna := false, isSeeding := false } := by
  induction lfs with
  | nil => intro m n k lf _ h; simp at h
  | cons d rest ih =>
    intro m n k lf hk hfind
    by_cases hd : d.torrent_info.info_hash = k
    · have hlf : d = lf := by simpa [List.find?_cons, hd] using hfind
      subst hlf
      have hc : ¬ mapCount m d.torrent_info.info_hash ≠ 0 := by
        rw [hd]; exact not_not.mpr ((mapCount_eq_zero_iff _ _).mpr hk)
      rw [populate_cons_absent clk d rest m n hc]
      refine ⟨n, le_refl n, populate_clockReads_le clk rest _ (n + 1), ?_⟩
      apply populate_mapFind_old
      rw [hd]
      exact mapFind_mapInsert_self _ _ _ hk
    · have hrest : rest.find? (fun d => decide (d.torrent_info.info_hash = k)) = some lf := by
        simpa [List.find?_cons, hd] using hfind
      by_cases hc : mapCount m d.torrent_info.info_hash ≠ 0
      · rw [populate_cons_present clk d rest m n hc]
        exact ih m n k lf hk hrest
      · rw [populate_cons_absent clk d rest m n hc]
        have hk' : k ∉ mapKeys (mapInsert d.torrent_info.info_hash
            ({ torrentFile := d.filename, timeStamp := clk n,
               isInLuna := false, isSeeding := false } : lunaTorrent_t) m) := by
          rw [mem_mapKeys_mapInsert]
          rintro (h | h)
          · exact hd h.symm
          · exact hk h
        obtain ⟨j, hj1, hj2, hj3⟩ := ih _ (n + 1) k lf hk' hrest
        exact ⟨j, by omega, hj2, hj3⟩

/-- The counterexample to C5: two descriptors with the same identity, absent
from the registry; the record stored under it does not carry the file name of
the second descriptor. -/
theorem populate_second_file_not_recorded :
    ¬ (∀ lf ∈ lfsDup, mapCount ([] : torrentsList_t) lf.torrent_info.info_hash = 0 →
        ∃ t, mapFind (populate env0.clk lfsDup ([], 0)).1 lf.torrent_info.info_hash =
          some { torrentFile := lf.filename, timeStamp := t,
                 isInLuna := false, isSeeding := false }) := by
  intro h
  obtain ⟨t, ht⟩ := h { filename := "b.torrent", torrent_info := { info_hash := 1 } }
    (by decide) (by decide)
  have hcode : mapFind (populate env0.clk lfsDup ([], 0)).1 1 =
      some { torrentFile := "a.torrent", timeStamp := 100,
             isInLuna := false, isSeeding := false } := by decide
  rw [hcode] at ht
  simp at ht

/-- Claim C5, amended. After the merge step of `updateLocalFiles_`:
(i) every record that was in the registry is unchanged; (ii) every identity
that was absent and is the identity of some descriptor is stored with the file
name of the first descriptor of the list that has it, the clock reading taken
at its insertion, and both flags false; (iii) every key of the registry is an
old key or the identity of one of the descriptors. -/
theorem populate_postcondition (clk : Nat → timeStamp_t) (lfs : List localFile_t)
    (m : torrentsList_t) (n : Nat) :
    (∀ k r, mapFind m k = some r → mapFind (populate clk lfs (m, n)).1 k = some r) ∧
    (∀ k lf, mapFind m k = none →
      lfs.find? (fun d => decide (d.torrent_info.info_hash = k)) = some lf →
      ∃ j, n ≤ j ∧ j < (populate clk lfs (m, n)).2 ∧
        mapFind (populate clk lfs (m, n)).1 k =
          some { torrentFile := lf.filename, timeStamp := clk j,
                 isInLuna := false, isSeeding := false }) ∧
    (∀ k, mapFind (populate clk lfs (m, n)).1 k ≠ none →
      mapFind m k ≠ none ∨ ∃ lf ∈ lfs, lf.torrent_info.info_hash = k) := by
  refine ⟨populate_mapFind_old clk lfs m n, ?_, ?_⟩
  · intro k lf hk hfind
    exact populate_mapFind_new clk lfs m n k lf ((mapFind_eq_none_iff m k).mp hk) hfind
  · intro k hk
    have hmem : k ∈ mapKeys (populate clk lfs (m, n)).1 := by
      by_contra hnot
      exact hk ((mapFind_eq_none_iff _ k).mpr hnot)
    rcases (mem_mapKeys_populate clk lfs m n k).mp hmem with h | h
    · left
      intro hnone
      exact (mapFind_eq_none_iff m k).mp hnone h
    · exact Or.inr h

theorem populate_postcondition_witness :
    mapFind regAB 2 = some { torrentFile := "B.torrent", timeStamp := 6,
                              isInLuna := true, isSeeding := false } ∧
    mapFind (populate env0.clk lfsDup (regAB, 0)).1 2 =
      some { torrentFile := "B.torrent", timeStamp := 6, isInLuna := true, isSeeding := false } ∧
    mapFind regAB 7 = none ∧
    (∃ j, 0 ≤ j ∧ j < (populate env0.clk lfsAB (regAB, 0)).2 ∧
      mapFind (populate env0.clk lfsAB (regAB, 0)).1 7 =
        some { torrentFile := "a.torrent", timeStamp := env0.clk j,
               isInLuna := false, isSeeding := false }) :=
  ⟨by decide,
    (populate_postcondition env0.clk lfsDup regAB 0).1 2 _ (by decide),
    by decide,
    (populate_postcondition env0.clk lfsAB regAB 0).2.1 7
      { filename := "a.torrent", torrent_info := { info_hash := 7 } } (by decide) (by decide)⟩

/-! ## `seedOSImages_` -/

theorem seedLoop_fst (ti : String → Option torrent_info) (m : torrentsList_t) :
    (seedLoop ti m).1 = m.map (fun e => (e.1, seedRecord ti e.2)) := by
  induction m with
  | nil => rfl
  | cons e rest ih =>
    obtain ⟨k, r⟩ := e
    simp only [seedLoop, List.map_cons]
    cases hs : r.isSeeding <;> cases hl : r.isInLuna <;> cases ht : ti r.torrentFile <;>
      simp [seedRecord, isCandidate, hs, hl, ht, ih]

theorem seedLoop_reparsedKeys (ti : String → Option torrent_info) (m : torrentsList_t) :
    reparsedKeys (seedLoop ti m).2 = mapKeys (m.filter (fun e => isCandidate e.2)) := by
  induction m with
  | nil => rfl
  | cons e rest ih =>
    obtain ⟨k, r⟩ := e
    simp only [seedLoop, mapKeys] at ih ⊢
    cases hs : r.isSeeding <;> cases hl : r.isInLuna <;> cases ht : ti r.torrentFile <;>
      simp [isCandidate, hs, hl, ht, ih, reparsedKeys, List.filter_cons]

theorem seedLoop_submittedKeys (ti : String → Option torrent_info) (m : torrentsList_t) :
    submittedKeys (seedLoop ti m).2 =
      mapKeys (m.filter (fun e => isCandidate e.2 && (ti e.2.torrentFile).isSome)) := by
  induction m with
  | nil => rfl
  | cons e rest ih =>
    obtain ⟨k, r⟩ := e
    simp only [seedLoop, mapKeys] at ih ⊢
    cases hs : r.isSeeding <;> cases hl : r.isInLuna <;> cases ht : ti r.torrentFile <;>
      simp [isCandidate, hs, hl, ht, ih, submittedKeys, List.filter_cons]

theorem seedLoop_submitted_mem (ti : String → Option torrent_info) (m : torrentsList_t)
    (k : sha1_hash) (r : lunaTorrent_t) (p : torrent_info) (hmem : (k, r) ∈ m)
    (hl : r.isInLuna = true) (hs : r.isSeeding = false) (ht : ti r.torrentFile = some p) :
    Event.async_add_torrent k p ∈ (seedLoop ti m).2 := by
  induction m with
  | nil => simp at hmem
  | cons e rest ih =>
    obtain ⟨k1, r1⟩ := e
    rcases List.mem_cons.mp hmem with h1 | h1
    · cases h1
      simp [seedLoop, hl, hs, ht]
    · have := ih h1
      simp only [seedLoop]
      cases hs1 : r1.isSeeding <;> cases hl1 : r1.isInLuna <;> cases ht1 : ti r1.torrentFile <;>
        simp [this]

theorem mapFind_map_snd {κ β : Type} [DecidableEq κ] (f : β → β) (m : List (κ × β)) (k : κ) :
    mapFind (m.map (fun e => (e.1, f e.2))) k = (mapFind m k).map f := by
  induction m with
  | nil => rfl
  | cons e rest ih =>
    obtain ⟨k1, v1⟩ := e
    by_cases h : k1 = k
    · simp [mapFind, h]
    · simp [mapFind, h, ih]

theorem mapKeys_map_snd {κ β : Type} (f : β → β) (m : List (κ × β)) :
    mapKeys (m.map (fun e => (e.1, f e.2))) = mapKeys m := by
  simp [mapKeys, List.map_map, Function.comp_def]

theorem mem_mapKeys_filter {κ β : Type} [DecidableEq κ] (q : κ × β → Bool) (m : List (κ × β))
    (k : κ) (hwf : mapWF m) :
    k ∈ mapKeys (m.filter q) ↔ ∃ v, mapFind m k = some v ∧ q (k, v) = true := by
  constructor
  · intro h
    obtain ⟨e, he, hk⟩ := List.mem_map.mp h
    obtain ⟨k1, v⟩ := e
    simp only at hk
    subst hk
    obtain ⟨hm, hq⟩ := List.mem_filter.mp he
    exact ⟨v, mapFind_of_mem m k1 v hwf hm, hq⟩
  · rintro ⟨v, hf, hq⟩
    exact List.mem_map.mpr ⟨(k, v), List.mem_filter.mpr ⟨mapFind_mem m k v hf, hq⟩, rfl⟩

/-- Claim C6. The events `ev` that `seedOSImages_` adds to the trace re-parse
exactly the records that are registered and not seeding at the start of the
phase, in registry order; every submission is for a record that was re-parsed;
so a key is re-parsed exactly when its record has `isInLuna` true and
`isSeeding` false. -/
theorem seedOSImages_candidates_exact (ti : String → Option torrent_info) (s : Torrents)
    (hwf : mapWF s.torrents_) :
    ∃ ev, (seedOSImages_ ti s).trace = s.trace ++ ev ∧
      reparsedKeys ev = mapKeys (s.torrents_.filter (fun e => isCandidate e.2)) ∧
      (∀ k, k ∈ submittedKeys ev → k ∈ reparsedKeys ev) ∧
      (∀ k, k ∈ reparsedKeys ev ↔
        ∃ r, mapFind s.torrents_ k = some r ∧ r.isInLuna = true ∧ r.isSeeding = false) := by
  have happ : ∀ (a b : List Event), reparsedKeys (Event.lock :: (a ++ b)) = reparsedKeys (a ++ b) :=
    fun _ _ => rfl
  have hre : ∀ (a : List Event), reparsedKeys (a ++ [Event.unlock]) = reparsedKeys a := by
    intro a
    induction a with
    | nil => rfl
    | cons e rest ih => cases e <;> simp [reparsedKeys, ih]
  have hsu : ∀ (a : List Event), submittedKeys (a ++ [Event.unlock]) = submittedKeys a := by
    intro a
    induction a with
    | nil => rfl
    | cons e rest ih => cases e <;> simp [submittedKeys, ih]
  have hR : reparsedKeys (Event.lock :: ((seedLoop ti s.torrents_).2 ++ [Event.unlock])) =
      mapKeys (s.torrents_.filter (fun e => isCandidate e.2)) := by
    rw [happ, hre, seedLoop_reparsedKeys]
  have hS : submittedKeys (Event.lock :: ((seedLoop ti s.torrents_).2 ++ [Event.unlock])) =
      mapKeys (s.torrents_.filter
        (fun e => isCandidate e.2 && (ti e.2.torrentFile).isSome)) := by
    show submittedKeys ((seedLoop ti s.torrents_).2 ++ [Event.unlock]) = _
    rw [hsu, seedLoop_submittedKeys]
  refine ⟨Event.lock :: ((seedLoop ti s.torrents_).2 ++ [Event.unlock]), ?_, hR, ?_, ?_⟩
  · simp [seedOSImages_]
  · intro k hk
    rw [hS] at hk
    rw [hR]
    obtain ⟨e, he, hek⟩ := List.mem_map.mp hk
    obtain ⟨hm, hq⟩ := List.mem_filter.mp he
    refine List.mem_map.mpr ⟨e, List.mem_filter.mpr ⟨hm, ?_⟩, hek⟩
    simp only [Bool.and_eq_true] at hq
    exact hq.1
  · intro k
    rw [hR, mem_mapKeys_filter _ _ _ hwf]
    simp [isCandidate]

theorem seedOSImages_candidates_exact_witness :
    mapWF regSeed ∧
      reparsedKeys
        (seedOSImages_ tiSample { Torrents.initial with torrents_ := regSeed }).trace = [1, 2] ∧
      submittedKeys
        (seedOSImages_ tiSample { Torrents.initial with torrents_ := regSeed }).trace = [1] ∧
      ∃ ev, (seedOSImages_ tiSample { Torrents.initial with torrents_ := regSeed }).trace =
          [] ++ ev ∧
        reparsedKeys ev = mapKeys (regSeed.filter (fun e => isCandidate e.2)) ∧
        (∀ k, k ∈ submittedKeys ev → k ∈ reparsedKeys ev) ∧
        (∀ k, k ∈ reparsedKeys ev ↔
          ∃ r, mapFind regSeed k = some r ∧ r.isInLuna = true ∧ r.isSeeding = false) :=
  ⟨by unfold mapWF; decide, by decide, by decide,
    seedOSImages_candidates_exact tiSample { Torrents.initial with torrents_ := regSeed }
      (by unfold mapWF; decide)⟩

theorem submittedKeys_append (a b : List Event) :
    submittedKeys (a ++ b) = submittedKeys a ++ submittedKeys b := by
  induction a with
  | nil => rfl
  | cons e rest ih => cases e <;> simp [submittedKeys, ih]

theorem submittedHashes_append (a b : List Event) :
    submittedHashes (a ++ b) = submittedHashes a ++ submittedHashes b := by
  induction a with
  | nil => rfl
  | cons e rest ih => cases e <;> simp [submittedHashes, ih]

/-- The trace of `seedOSImages_` and the keys it submits. -/
theorem seedOSImages_trace (ti : String → Option torrent_info) (s : Torrents) :
    (seedOSImages_ ti s).trace =
        s.trace ++ (Event.lock :: ((seedLoop ti s.torrents_).2 ++ [Event.unlock])) ∧
      submittedKeys (Event.lock :: ((seedLoop ti s.torrents_).2 ++ [Event.unlock])) =
        mapKeys (s.torrents_.filter
          (fun e => isCandidate e.2 && (ti e.2.torrentFile).isSome)) := by
  constructor
  · simp [seedOSImages_]
  · show submittedKeys ((seedLoop ti s.torrents_).2 ++ [Event.unlock]) = _
    rw [submittedKeys_append, seedLoop_submittedKeys]
    simp [submittedKeys]

theorem seedOSImages_torrents (ti : String → Option torrent_info) (s : Torrents) :
    (seedOSImages_ ti s).torrents_ = s.torrents_.map (fun e => (e.1, seedRecord ti e.2)) := by
  simp [seedOSImages_, seedLoop_fst]

/-- Claim C7. For a record that is a candidate at the start of
`seedOSImages_` (registered, not seeding): when its descriptor re-parses, the
parsed descriptor is submitted for it and the record is marked seeding; when
the re-parse fails, nothing is submitted for it and the record is unchanged,
hence a candidate again; and this holds whatever the outcomes for the other
records. -/
theorem seedOSImages_outcome (ti : String → Option torrent_info) (s : Torrents)
    (hwf : mapWF s.torrents_) (k : sha1_hash) (r : lunaTorrent_t)
    (hfind : mapFind s.torrents_ k = some r) (hl : r.isInLuna = true)
    (hs : r.isSeeding = false) :
    ∃ ev, (seedOSImages_ ti s).trace = s.trace ++ ev ∧
      (∀ p, ti r.torrentFile = some p →
        Event.async_add_torrent k p ∈ ev ∧
        mapFind (seedOSImages_ ti s).torrents_ k = some { r with isSeeding := true }) ∧
      (ti r.torrentFile = none →
        k ∉ submittedKeys ev ∧ mapFind (seedOSImages_ ti s).torrents_ k = some r) := by
  obtain ⟨htr, hsub⟩ := seedOSImages_trace ti s
  refine ⟨_, htr, ?_, ?_⟩
  · intro p hp
    constructor
    · apply List.mem_cons_of_mem
      apply List.mem_append_left
      exact seedLoop_submitted_mem ti s.torrents_ k r p (mapFind_mem _ _ _ hfind) hl hs hp
    · rw [seedOSImages_torrents, mapFind_map_snd, hfind]
      simp [seedRecord, isCandidate, hl, hs, hp]
  · intro hnone
    constructor
    · rw [hsub, mem_mapKeys_filter _ _ _ hwf]
      rintro ⟨v, hv, hq⟩
      rw [hfind] at hv
      cases hv
      simp [hnone] at hq
    · rw [seedOSImages_torrents, mapFind_map_snd, hfind]
      simp [seedRecord, hnone]

theorem seedOSImages_outcome_witness :
    (mapWF regSeed ∧
      mapFind regSeed 1 = some { torrentFile := "a.torrent", timeStamp := 5,
                                 isInLuna := true, isSeeding := false } ∧
      tiSample "a.torrent" = some { info_hash := 1 } ∧
      mapFind regSeed 2 = some { torrentFile := "b.torrent", timeStamp := 5,
                                 isInLuna := true, isSeeding := false } ∧
      tiSample "b.torrent" = none) ∧
    (Event.async_add_torrent 1 { info_hash := 1 } ∈
        (seedOSImages_ tiSample { Torrents.initial with torrents_ := regSeed }).trace ∧
      mapFind (seedOSImages_ tiSample { Torrents.initial with torrents_ := regSeed }).torrents_ 1 =
        some { torrentFile := "a.torrent", timeStamp := 5, isInLuna := true, isSeeding := true }) ∧
    (2 ∉ submittedKeys
        (seedOSImages_ tiSample { Torrents.initial with torrents_ := regSeed }).trace ∧
      mapFind (seedOSImages_ tiSample { Torrents.initial with torrents_ := regSeed }).torrents_ 2 =
        some { torrentFile := "b.torrent", timeStamp := 5, isInLuna := true, isSeeding := false }) := by
  have hwf : mapWF regSeed := by unfold mapWF; decide
  obtain ⟨ev1, htr1, hok, _⟩ :=
    seedOSImages_outcome tiSample { Torrents.initial with torrents_ := regSeed } hwf 1
      { torrentFile := "a.torrent", timeStamp := 5, isInLuna := true, isSeeding := false }
      (by decide) rfl rfl
  obtain ⟨ev2, htr2, _, hfail⟩ :=
    seedOSImages_outcome tiSample { Torrents.initial with torrents_ := regSeed } hwf 2
      { torrentFile := "b.torrent", timeStamp := 5, isInLuna := true, isSeeding := false }
      (by decide) rfl rfl
  refine ⟨⟨hwf, by decide, by decide, by decide, by decide⟩, ?_, ?_⟩
  · have h := hok { info_hash := 1 } (by decide)
    rw [htr1]
    exact ⟨List.mem_append_right _ h.1, h.2⟩
  · have h := hfail (by decide)
    rw [htr2]
    exact ⟨by simpa [submittedKeys_append, Torrents.initial, submittedKeys] using h.1, h.2⟩

/-! ## What every phase keeps of a record -/

theorem keeps_refl (a : lunaTorrent_t) : keeps a a := ⟨rfl, id⟩

theorem updateLocalFiles_keeps (env : Env) (files : List String)
    (ti : String → Option torrent_info) (s : Torrents) (k : sha1_hash) (r : lunaTorrent_t)
    (h : mapFind s.torrents_ k = some r) :
    mapFind (updateLocalFiles_ env files ti s).torrents_ k = some r := by
  simp only [updateLocalFiles_]
  exact populate_mapFind_old _ _ _ _ k r h

theorem updateLunaFiles_forall₂ (env : Env) (r : Runner) (s : Torrents) :
    List.Forall₂ (fun a b => b.1 = a.1 ∧ keeps a.2 b.2)
      s.torrents_ (updateLunaFiles_ env r s).torrents_ := by
  have hrefl : List.Forall₂ (fun a b : sha1_hash × lunaTorrent_t => b.1 = a.1 ∧ keeps a.2 b.2)
      s.torrents_ s.torrents_ :=
    List.forall₂_same.mpr (fun a _ => ⟨rfl, keeps_refl a.2⟩)
  by_cases hrc : r.rc ≠ 0
  · simpa [updateLunaFiles_, hrc] using hrefl
  · by_cases hout : r.out = ""
    · simpa [updateLunaFiles_, hrc, hout] using hrefl
    · simp only [updateLunaFiles_, hrc, hout, if_false]
      have hrec := reconcile_forall₂ env (env.splitString r.out)
        { torrents_ := s.torrents_, lastCheckedLuna_ := env.clk s.clockReads,
          clockReads := s.clockReads + 1, trace := s.trace ++ [Event.exec] }
      refine List.Forall₂.imp ?_ hrec
      intro a b hab
      exact ⟨hab.1, hab.2.1, fun hs => by rw [hab.2.2.1]; exact hs⟩

theorem updateLunaFiles_keeps (env : Env) (r : Runner) (s : Torrents) (k : sha1_hash)
    (v : lunaTorrent_t) (h : mapFind s.torrents_ k = some v) :
    ∃ v', mapFind (updateLunaFiles_ env r s).torrents_ k = some v' ∧ keeps v v' :=
  mapFind_forall₂ (updateLunaFiles_forall₂ env r s) k v h

theorem updateLunaFiles_mapKeys (env : Env) (r : Runner) (s : Torrents) :
    mapKeys (updateLunaFiles_ env r s).torrents_ = mapKeys s.torrents_ :=
  mapKeys_forall₂ (updateLunaFiles_forall₂ env r s)

theorem seedRecord_keeps (ti : String → Option torrent_info) (r : lunaTorrent_t) :
    keeps r (seedRecord ti r) := by
  unfold seedRecord keeps
  split <;> simp

theorem seedOSImages_keeps (ti : String → Option torrent_info) (s : Torrents) (k : sha1_hash)
    (v : lunaTorrent_t) (h : mapFind s.torrents_ k = some v) :
    ∃ v', mapFind (seedOSImages_ ti s).torrents_ k = some v' ∧ keeps v v' := by
  rw [seedOSImages_torrents, mapFind_map_snd, h]
  exact ⟨seedRecord ti v, rfl, seedRecord_keeps ti v⟩

theorem submittedKeys_scanEvents (ext : String) (files : List String) :
    submittedKeys (scanEvents ext files) = [] := by
  induction files with
  | nil => rfl
  | cons f rest ih =>
    simp only [scanEvents, submittedKeys_append, ih, parseTorrentFileEvents]
    split <;> simp [submittedKeys]

theorem submittedKeys_reportMissing (luna : List (String × Bool)) :
    submittedKeys (reportMissing luna) = [] := by
  induction luna with
  | nil => rfl
  | cons e rest ih =>
    obtain ⟨f, matched⟩ := e
    cases matched <;> simp [reportMissing, submittedKeys, ih]

theorem updateLocalFiles_submittedKeys (env : Env) (files : List String)
    (ti : String → Option torrent_info) (s : Torrents) :
    submittedKeys (updateLocalFiles_ env files ti s).trace = submittedKeys s.trace := by
  simp [updateLocalFiles_, submittedKeys_append, submittedKeys_scanEvents, submittedKeys]

theorem updateLunaFiles_submittedKeys (env : Env) (r : Runner) (s : Torrents) :
    submittedKeys (updateLunaFiles_ env r s).trace = submittedKeys s.trace := by
  by_cases hrc : r.rc ≠ 0
  · simp [updateLunaFiles_, hrc, submittedKeys_append, submittedKeys]
  · by_cases hout : r.out = ""
    · simp [updateLunaFiles_, hrc, hout, submittedKeys_append, submittedKeys]
    · simp [updateLunaFiles_, hrc, hout, reconcile, submittedKeys_append,
        submittedKeys_reportMissing, submittedKeys]

theorem updateLocalFiles_seedInv (env : Env) (files : List String)
    (ti : String → Option torrent_info) (s : Torrents) (h : seedInv s) :
    seedInv (updateLocalFiles_ env files ti s) := by
  obtain ⟨hwf, hnd, hsub⟩ := h
  refine ⟨?_, ?_, ?_⟩
  · simp only [updateLocalFiles_]
    exact populate_mapWF _ _ _ _ hwf
  · rw [updateLocalFiles_submittedKeys]; exact hnd
  · intro k hk
    rw [updateLocalFiles_submittedKeys] at hk
    obtain ⟨r, hr, hs⟩ := hsub k hk
    exact ⟨r, updateLocalFiles_keeps env files ti s k r hr, hs⟩

theorem updateLunaFiles_seedInv (env : Env) (r : Runner) (s : Torrents) (h : seedInv s) :
    seedInv (updateLunaFiles_ env r s) := by
  obtain ⟨hwf, hnd, hsub⟩ := h
  refine ⟨?_, ?_, ?_⟩
  · unfold mapWF
    rw [updateLunaFiles_mapKeys]
    exact hwf
  · rw [updateLunaFiles_submittedKeys]; exact hnd
  · intro k hk
    rw [updateLunaFiles_submittedKeys] at hk
    obtain ⟨v, hv, hs⟩ := hsub k hk
    obtain ⟨v', hv', hkeep⟩ := updateLunaFiles_keeps env r s k v hv
    exact ⟨v', hv', hkeep.2 hs⟩

theorem seedOSImages_seedInv (ti : String → Option torrent_info) (s : Torrents)
    (h : seedInv s) : seedInv (seedOSImages_ ti s) := by
  obtain ⟨hwf, hnd, hsub⟩ := h
  obtain ⟨htr, hnew⟩ := seedOSImages_trace ti s
  have hkeys : submittedKeys (seedOSImages_ ti s).trace =
      submittedKeys s.trace ++ mapKeys (s.torrents_.filter
        (fun e => isCandidate e.2 && (ti e.2.torrentFile).isSome)) := by
    rw [htr, submittedKeys_append, hnew]
  refine ⟨?_, ?_, ?_⟩
  · unfold mapWF
    rw [seedOSImages_torrents, mapKeys_map_snd]
    exact hwf
  · rw [hkeys]
    refine List.nodup_append.mpr ⟨hnd, ?_, ?_⟩
    · exact List.Nodup.sublist ((List.filter_sublist _).map Prod.fst) hwf
    · intro k hold hnew'
      obtain ⟨r, hr, hs⟩ := hsub k hold
      obtain ⟨v, hv, hq⟩ := (mem_mapKeys_filter _ _ k hwf).mp hnew'
      rw [hr] at hv
      cases hv
      simp [isCandidate, hs] at hq
  · intro k hk
    rw [hkeys] at hk
    rcases List.mem_append.mp hk with hold | hnew'
    · obtain ⟨v, hv, hs⟩ := hsub k hold
      obtain ⟨v', hv', hkeep⟩ := seedOSImages_keeps ti s k v hv
      exact ⟨v', hv', hkeep.2 hs⟩
    · obtain ⟨v, hv, hq⟩ := (mem_mapKeys_filter _ _ k hwf).mp hnew'
      refine ⟨seedRecord ti v, ?_, ?_⟩
      · rw [seedOSImages_torrents, mapFind_map_snd, hv]; rfl
      · simp only at hq
        simp [seedRecord, hq]

theorem updateBody_seedInv (env : Env) (inp : CycleInput) (s : Torrents) (h : seedInv s) :
    seedInv (updateBody env inp s) :=
  seedOSImages_seedInv _ _ (updateLunaFiles_seedInv _ _ _ (updateLocalFiles_seedInv _ _ _ _ h))

theorem runPhase_seedInv (env : Env) (ph : PhaseRun) (s : Torrents) (h : seedInv s) :
    seedInv (runPhase env ph s) := by
  cases ph with
  | updateLocalFiles files ti => exact updateLocalFiles_seedInv env files ti s h
  | updateLunaFiles r => exact updateLunaFiles_seedInv env r s h
  | seedOSImages ti => exact seedOSImages_seedInv ti s h
  | deleteOldTorrents => exact h

theorem runPhases_seedInv (env : Env) (runs : List PhaseRun) :
    ∀ s, seedInv s → seedInv (runPhases env runs s) := by
  induction runs with
  | nil => intro s h; exact h
  | cons ph rest ih => intro s h; exact ih _ (runPhase_seedInv env ph s h)

theorem seedInv_initial : seedInv Torrents.initial := by
  refine ⟨?_, ?_, ?_⟩
  · simp [mapWF, mapKeys, Torrents.initial]
  · simp [Torrents.initial, submittedKeys]
  · intro k hk; simp [Torrents.initial, submittedKeys] at hk

/-- The counterexample to C8. In the first cycle from the empty registry the
scan finds a.torrent (identity 1) and b.torrent (identity 2), the authority
reports both, and b.torrent is overwritten with a copy of a.torrent before
`seedOSImages_` re-parses it: when the four phases of the body of `update`
have run, identity 1 has been handed to `async_add_torrent` twice, once for
the record under key 1 and once for the record under key 2. -/
theorem same_identity_submitted_twice :
    submittedHashes (updateBody env0 cycleRace Torrents.initial).trace = [1, 1] ∧
      submittedKeys (updateBody env0 cycleRace Torrents.initial).trace = [1, 2] ∧
      ¬ (∀ h : sha1_hash,
        (submittedHashes (updateBody env0 cycleRace Torrents.initial).trace).count h ≤ 1) := by
  have hnlt : ¬ ("b.torrent" < "a.torrent") := by
    rw [String.lt_iff_toList_lt]
    decide
  have hlines : env0.splitString cycleRace.runner.out = ["a", "b"] := by decide
  have hluna : buildLunaConfiguredTorrents env0.TORRENT_FILE_EXTENSION ["a", "b"] [] =
      [("a.torrent", false), ("b.torrent", false)] := by
    have hA : "a" ++ env0.TORRENT_FILE_EXTENSION = "a.torrent" := by decide
    have hB : "b" ++ env0.TORRENT_FILE_EXTENSION = "b.torrent" := by decide
    have hne : ¬ ("a.torrent" = "b.torrent") := by decide
    simp only [buildLunaConfiguredTorrents, hA, hB, mapInsert, hnlt, hne, if_false]
  have hrc : ¬ cycleRace.runner.rc ≠ 0 := by decide
  have hout : ¬ cycleRace.runner.out = "" := by decide
  have hstate : (updateBody env0 cycleRace Torrents.initial).trace =
      [Event.readDirectory, Event.parse "a.torrent", Event.parse "b.torrent",
       Event.lock, Event.unlock, Event.exec, Event.lock, Event.unlock,
       Event.lock, Event.reparse 1 "a.torrent", Event.async_add_torrent 1 { info_hash := 1 },
       Event.reparse 2 "b.torrent", Event.async_add_torrent 2 { info_hash := 1 },
       Event.unlock] := by
    simp only [updateBody, deleteOldTorrents_, updateLunaFiles_, hrc, hout, if_false, reconcile,
      hlines, hluna]
    decide
  rw [hstate]
  refine ⟨by decide, by decide, ?_⟩
  intro h
  exact absurd (h 1) (by decide)

/-- Claim C8, amended. Over any finite sequence of runs of the four phases
from the empty registry, with arbitrary directory contents, parse outcomes
and authority results, `async_add_torrent` is called at most once for each
record of the registry (each key); in any state so reached, running
`seedOSImages_` on a record already marked seeding leaves the record as it is
and submits nothing for it; and the body of `update` is such a sequence. -/
theorem no_duplicate_submission (env : Env) (runs : List PhaseRun) :
    (∀ k, (submittedKeys (runPhases env runs Torrents.initial).trace).count k ≤ 1) ∧
    (∀ (ti : String → Option torrent_info) (k : sha1_hash) (r : lunaTorrent_t),
      mapFind (runPhases env runs Torrents.initial).torrents_ k = some r →
      r.isSeeding = true →
      mapFind (seedOSImages_ ti (runPhases env runs Torrents.initial)).torrents_ k = some r ∧
      (submittedKeys (seedOSImages_ ti (runPhases env runs Torrents.initial)).trace).count k =
        (submittedKeys (runPhases env runs Torrents.initial).trace).count k) ∧
    (∀ (inp : CycleInput) (s : Torrents),
      updateBody env inp s = runPhases env (cyclePhases inp) s) := by
  have hinv := runPhases_seedInv env runs Torrents.initial seedInv_initial
  refine ⟨fun k => List.nodup_iff_count_le_one.mp hinv.2.1 k, ?_, fun _ _ => rfl⟩
  intro ti k r hr hs
  constructor
  · rw [seedOSImages_torrents, mapFind_map_snd, hr]
    simp [seedRecord, isCandidate, hs]
  · obtain ⟨htr, hnew⟩ := seedOSImages_trace ti (runPhases env runs Torrents.initial)
    rw [htr, submittedKeys_append, hnew, List.count_append]
    have hnot : k ∉ mapKeys ((runPhases env runs Torrents.initial).torrents_.filter
        (fun e => isCandidate e.2 && (ti e.2.torrentFile).isSome)) := by
      intro hmem
      obtain ⟨v, hv, hq⟩ := (mem_mapKeys_filter _ _ k hinv.1).mp hmem
      rw [hr] at hv
      cases hv
      simp [isCandidate, hs] at hq
    rw [List.count_eq_zero_of_not_mem hnot]
    rfl

theorem no_duplicate_submission_witness :
    submittedKeys (runPhases env0 (cyclePhases cycleA) Torrents.initial).trace = [1] ∧
    mapFind (runPhases env0 (cyclePhases cycleA) Torrents.initial).torrents_ 1 =
      some { torrentFile := "a.torrent", timeStamp := 103, isInLuna := true, isSeeding := true } ∧
    (∀ k, (submittedKeys
      (runPhases env0 (cyclePhases cycleA) Torrents.initial).trace).count k ≤ 1) ∧
    mapFind (seedOSImages_ parseAB
        (runPhases env0 (cyclePhases cycleA) Torrents.initial)).torrents_ 1 =
      some { torrentFile := "a.torrent", timeStamp := 103, isInLuna := true, isSeeding := true } ∧
    (submittedKeys (seedOSImages_ parseAB
        (runPhases env0 (cyclePhases cycleA) Torrents.initial)).trace).count 1 =
      (submittedKeys (runPhases env0 (cyclePhases cycleA) Torrents.initial).trace).count 1 :=
  ⟨by decide, by decide,
    (no_duplicate_submission env0 (cyclePhases cycleA)).1,
    (no_duplicate_submission env0 (cyclePhases cycleA)).2.1 parseAB 1
      { torrentFile := "a.torrent", timeStamp := 103, isInLuna := true, isSeeding := true }
      (by decide) rfl⟩

/-! ## The anomaly report of `updateLunaFiles_` -/

theorem mem_mapInsert {κ β : Type} [DecidableEq κ] [LT κ]
    [DecidableRel (fun a b : κ => a < b)] (k : κ) (v : β) (m : List (κ × β)) (e : κ × β)
    (h : e ∈ mapInsert k v m) : e = (k, v) ∨ e ∈ m := by
  induction m with
  | nil => simpa [mapInsert] using h
  | cons e1 rest ih =>
    obtain ⟨k1, v1⟩ := e1
    by_cases hlt : k < k1
    · simpa [mapInsert, hlt] using h
    · by_cases hk : k1 = k
      · subst hk
        right
        simpa [mapInsert, hlt] using h
      · simp only [mapInsert, hlt, hk, if_false, List.mem_cons] at h
        rcases h with h | h
        · exact Or.inr (List.mem_cons.mpr (Or.inl h))
        · rcases ih h with h' | h'
          · exact Or.inl h'
          · exact Or.inr (List.mem_cons_of_mem _ h')

/-- Insertion in key order keeps the keys strictly increasing. -/
theorem mapInsert_sorted {κ β : Type} [DecidableEq κ] [LT κ]
    [DecidableRel (fun a b : κ => a < b)]
    (htrans : ∀ a b c : κ, a < b → b < c → a < c)
    (htri : ∀ a b : κ, a < b ∨ a = b ∨ b < a)
    (k : κ) (v : β) (m : List (κ × β))
    (h : (mapKeys m).Pairwise (fun a b => a < b)) :
    (mapKeys (mapInsert k v m)).Pairwise (fun a b => a < b) := by
  induction m with
  | nil => simp [mapInsert, mapKeys]
  | cons e1 rest ih =>
    obtain ⟨k1, v1⟩ := e1
    have h' : (∀ x ∈ mapKeys rest, k1 < x) ∧ (mapKeys rest).Pairwise (fun a b => a < b) := by
      simpa [mapKeys] using h
    by_cases hlt : k < k1
    · simp only [mapInsert, hlt, if_true]
      show (k :: mapKeys ((k1, v1) :: rest)).Pairwise (fun a b => a < b)
      refine List.Pairwise.cons ?_ h
      intro x hx
      have hx' : x = k1 ∨ x ∈ mapKeys rest := by simpa [mapKeys] using hx
      rcases hx' with hx' | hx'
      · rw [hx']; exact hlt
      · exact htrans _ _ _ hlt (h'.1 x hx')
    · by_cases hk : k1 = k
      · subst hk
        simpa [mapInsert, hlt] using h
      · simp only [mapInsert, hlt, hk, if_false]
        show (k1 :: mapKeys (mapInsert k v rest)).Pairwise (fun a b => a < b)
        refine List.Pairwise.cons ?_ (ih h'.2)
        intro x hx
        rcases (mem_mapKeys_mapInsert k v rest x).mp hx with hx' | hx'
        · rw [hx']
          rcases htri k k1 with h1 | h1 | h1
          · exact absurd h1 hlt
          · exact absurd h1.symm hk
          · exact h1
        · exact h'.1 x hx'

theorem buildLunaConfiguredTorrents_sorted (ext : String) (lines : List String) :
    ∀ luna : List (String × Bool), (mapKeys luna).Pairwise (fun a b => a < b) →
      (mapKeys (buildLunaConfiguredTorrents ext lines luna)).Pairwise (fun a b => a < b) := by
  induction lines with
  | nil => intro luna h; simpa [buildLunaConfiguredTorrents] using h
  | cons line rest ih =>
    intro luna h
    simp only [buildLunaConfiguredTorrents]
    exact ih _ (mapInsert_sorted (fun _ _ _ => lt_trans) lt_trichotomy _ _ _ h)

theorem buildLunaConfiguredTorrents_mapWF (ext : String) (lines : List String) :
    mapWF (buildLunaConfiguredTorrents ext lines []) := by
  have h := buildLunaConfiguredTorrents_sorted ext lines [] (by simp [mapKeys])
  unfold mapWF
  exact h.imp (fun hab => ne_of_lt hab)

theorem buildLunaConfiguredTorrents_flags (ext : String) (lines : List String) :
    ∀ luna : List (String × Bool), (∀ e ∈ luna, e.2 = false) →
      ∀ e ∈ buildLunaConfiguredTorrents ext lines luna, e.2 = false := by
  induction lines with
  | nil => intro luna h; simpa [buildLunaConfiguredTorrents] using h
  | cons line rest ih =>
    intro luna h
    simp only [buildLunaConfiguredTorrents]
    apply ih
    intro e he
    rcases mem_mapInsert _ _ _ e he with h1 | h1
    · rw [h1]
    · exact h e h1

theorem mapAssign_eq_map {κ β : Type} [DecidableEq κ] (k : κ) (v : β) (m : List (κ × β))
    (hwf : mapWF m) :
    mapAssign k v m = m.map (fun e => (e.1, if e.1 = k then v else e.2)) := by
  induction m with
  | nil => rfl
  | cons e1 rest ih =>
    obtain ⟨k1, v1⟩ := e1
    simp only [mapWF, mapKeys, List.map_cons, List.nodup_cons] at hwf
    by_cases hk : k1 = k
    · subst hk
      have hrest : rest.map (fun e => (e.1, if e.1 = k1 then v else e.2)) = rest := by
        conv_rhs => rw [← List.map_id rest]
        apply List.map_congr_left
        intro e he
        have hne : e.1 ≠ k1 := by
          intro heq
          exact hwf.1 (List.mem_map.mpr ⟨e, he, heq⟩)
        simp [hne]
      simp [mapAssign, hrest]
    · simp only [mapAssign, hk, if_false, List.map_cons]
      rw [ih hwf.2]

/-- The flags of the configured torrents after the loop "update torrents_":
a flag is set exactly when it was set before or some record has that file
name. -/
theorem reconcileLoop_luna (clk : Nat → timeStamp_t) (m : torrentsList_t) :
    ∀ (luna : List (String × Bool)) (n : Nat), mapWF luna →
      (reconcileLoop clk m luna n).2.1 =
        luna.map (fun e => (e.1, e.2 || m.any (fun x => decide (x.2.torrentFile = e.1)))) := by
  induction m with
  | nil => intro luna n _; simp [reconcileLoop]
  | cons e1 rest ih =>
    intro luna n hwf
    obtain ⟨k, r⟩ := e1
    by_cases hc : mapCount luna r.torrentFile = 0
    · have hnot : r.torrentFile ∉ mapKeys luna := (mapCount_eq_zero_iff _ _).mp hc
      simp only [reconcileLoop, hc, if_true]
      rw [ih luna n hwf]
      apply List.map_congr_left
      intro e he
      have hne : r.torrentFile ≠ e.1 := by
        intro heq
        exact hnot (List.mem_map.mpr ⟨e, he, heq.symm⟩)
      simp [hne]
    · simp only [reconcileLoop, hc, if_false]
      have hwf' : mapWF (mapAssign r.torrentFile true luna) := by
        unfold mapWF
        rw [mapKeys_mapAssign]
        exact hwf
      rw [ih _ (n + 1) hwf', mapAssign_eq_map _ _ _ hwf, List.map_map]
      apply List.map_congr_left
      intro e _
      by_cases heq : e.1 = r.torrentFile
      · simp [heq]
      · have heq' : ¬ r.torrentFile = e.1 := fun h => heq h.symm
        simp [heq, heq']

theorem anomalies_reportMissing (luna : List (String × Bool)) (f : String) :
    f ∈ anomalies (reportMissing luna) ↔ (f, false) ∈ luna := by
  induction luna with
  | nil => simp [reportMissing, anomalies]
  | cons e rest ih =>
    obtain ⟨g, matched⟩ := e
    cases matched <;> simp [reportMissing, anomalies, ih]

theorem reportMissing_only_anomalies (luna : List (String × Bool)) :
    ∀ e ∈ reportMissing luna, ∃ f, e = Event.anomaly f := by
  induction luna with
  | nil => intro e he; simp [reportMissing] at he
  | cons e1 rest ih =>
    obtain ⟨g, matched⟩ := e1
    intro e he
    cases matched
    · simp only [reportMissing, Bool.not_false, if_true, List.mem_cons] at he
      rcases he with he | he
      · exact ⟨g, he⟩
      · exact ih e he
    · simp only [reportMissing, Bool.not_true] at he
      exact ih e he

/-- Claim C11. The events that follow the release of the lock in the
reconciliation step of `updateLunaFiles_` are anomaly reports only; a file name
is reported exactly when it is an expected name (a line followed by the
suffix) and no record of the registry has it as its `torrentFile`; and the
registry after the step is the registry left by the loop "update torrents_":
the report changes nothing. -/
theorem anomaly_report_exact (env : Env) (lines : List String) (s : Torrents) :
    ∃ rep, (reconcile env lines s).trace = s.trace ++ [Event.lock, Event.unlock] ++ rep ∧
      (∀ e ∈ rep, ∃ f, e = Event.anomaly f) ∧
      (∀ f, f ∈ anomalies rep ↔
        f ∈ lines.map (fun line => line ++ env.TORRENT_FILE_EXTENSION) ∧
          ∀ k r, (k, r) ∈ s.torrents_ → r.torrentFile ≠ f) ∧
      (reconcile env lines s).torrents_ =
        (reconcileLoop env.clk s.torrents_
          (buildLunaConfiguredTorrents env.TORRENT_FILE_EXTENSION lines []) s.clockReads).1 := by
  refine ⟨_, rfl, reportMissing_only_anomalies _, ?_, rfl⟩
  intro f
  have hwf := buildLunaConfiguredTorrents_mapWF env.TORRENT_FILE_EXTENSION lines
  have hflags := buildLunaConfiguredTorrents_flags env.TORRENT_FILE_EXTENSION lines []
    (by intro e he; simp at he)
  have hkeys := mem_mapKeys_buildLunaConfiguredTorrents env.TORRENT_FILE_EXTENSION lines [] f
  rw [anomalies_reportMissing, reconcileLoop_luna _ _ _ _ hwf]
  constructor
  · intro h
    obtain ⟨e, he, heq⟩ := List.mem_map.mp h
    have h1 : e.1 = f := congrArg Prod.fst heq
    have h2 : (e.2 || s.torrents_.any (fun x => decide (x.2.torrentFile = e.1))) = false :=
      congrArg Prod.snd heq
    constructor
    · have : f ∈ mapKeys (buildLunaConfiguredTorrents env.TORRENT_FILE_EXTENSION lines []) :=
        List.mem_map.mpr ⟨e, he, h1⟩
      simpa [mapKeys] using hkeys.mp this
    · intro k r hmem hfile
      have hany : s.torrents_.any (fun x => decide (x.2.torrentFile = e.1)) = true :=
        List.any_eq_true.mpr ⟨(k, r), hmem, by simp [hfile, h1]⟩
      rw [hany] at h2
      simp at h2
  · rintro ⟨hexp, hnone⟩
    have hk : f ∈ mapKeys (buildLunaConfiguredTorrents env.TORRENT_FILE_EXTENSION lines []) :=
      hkeys.mpr (Or.inl hexp)
    obtain ⟨e, he, heq⟩ := List.mem_map.mp hk
    refine List.mem_map.mpr ⟨e, he, ?_⟩
    have hfl : e.2 = false := hflags e he
    have hany : s.torrents_.any (fun x => decide (x.2.torrentFile = e.1)) = false := by
      rw [Bool.eq_false_iff]
      intro hany
      obtain ⟨x, hx, hdec⟩ := List.any_eq_true.mp hany
      exact hnone x.1 x.2 hx (by rw [← heq]; exact of_decide_eq_true hdec)
    rw [hfl, hany]
    exact Prod.ext heq rfl

/-- An example for C11: A.torrent and C.torrent are expected, the registry
holds A.torrent and B.torrent; only C.torrent is reported. -/
theorem anomaly_report_exact_witness :
    anomalies (reconcile env0 ["A", "C"] { Torrents.initial with torrents_ := regAB }).trace =
        ["C.torrent"] ∧
      ∃ rep, (reconcile env0 ["A", "C"] { Torrents.initial with torrents_ := regAB }).trace =
          [] ++ [Event.lock, Event.unlock] ++ rep ∧
        (∀ e ∈ rep, ∃ f, e = Event.anomaly f) ∧
        (∀ f, f ∈ anomalies rep ↔
          f ∈ ["A", "C"].map (fun line => line ++ env0.TORRENT_FILE_EXTENSION) ∧
            ∀ k r, (k, r) ∈ regAB → r.torrentFile ≠ f) ∧
        (reconcile env0 ["A", "C"] { Torrents.initial with torrents_ := regAB }).torrents_ =
          (reconcileLoop env0.clk regAB
            (buildLunaConfiguredTorrents env0.TORRENT_FILE_EXTENSION ["A", "C"] []) 0).1 := by
  refine ⟨?_,
    anomaly_report_exact env0 ["A", "C"] { Torrents.initial with torrents_ := regAB }⟩
  have hnlt : ¬ ("C.torrent" < "A.torrent") := by
    rw [String.lt_iff_toList_lt]
    decide
  have hluna : buildLunaConfiguredTorrents env0.TORRENT_FILE_EXTENSION ["A", "C"] [] =
      [("A.torrent", false), ("C.torrent", false)] := by
    have hA : "A" ++ env0.TORRENT_FILE_EXTENSION = "A.torrent" := by decide
    have hC : "C" ++ env0.TORRENT_FILE_EXTENSION = "C.torrent" := by decide
    have hne : ¬ ("A.torrent" = "C.torrent") := by decide
    simp only [buildLunaConfiguredTorrents, hA, hC, mapInsert, hnlt, hne, if_false]
  simp only [reconcile, hluna]
  decide

/-! ## The screen of `parseTorrentFile_` -/

/-- The two screening tests pass exactly for the names that end with the
suffix. -/
theorem screen_iff (ext f : String) :
    (¬ f.length < ext.length ∧ f.data.drop (f.length - ext.length) = ext.data) ↔
      ∃ p : String, f = p ++ ext := by
  constructor
  · rintro ⟨_, hdrop⟩
    refine ⟨⟨f.data.take (f.length - ext.length)⟩, ?_⟩
    apply String.ext
    rw [String.data_append, ← hdrop]
    exact (List.take_append_drop _ _).symm
  · rintro ⟨p, rfl⟩
    have hlen : (p ++ ext).length = p.length + ext.length := String.length_append p ext
    constructor
    · omega
    · rw [hlen, Nat.add_sub_cancel, String.data_append]
      exact List.drop_left' (String.length_data p)

theorem endsWithExtension_iff (ext f : String) :
    endsWithExtension ext f = true ↔ ∃ p : String, f = p ++ ext := by
  rw [← screen_iff]
  unfold endsWithExtension
  by_cases hlen : f.length < ext.length
  · simp [hlen]
  · simp [hlen]

theorem parseTorrentFile_eq (ext : String) (ti : String → Option torrent_info) (f : String) :
    parseTorrentFile_ ext ti f =
      if endsWithExtension ext f then
        (ti f).map (fun file_info => { filename := f, torrent_info := file_info })
      else none := by
  unfold parseTorrentFile_ endsWithExtension
  by_cases hlen : f.length < ext.length
  · simp [hlen]
  · by_cases hdrop : f.data.drop (f.length - ext.length) = ext.data
    · cases hti : ti f <;> simp [hlen, hdrop]
    · simp [hlen, hdrop]

/-- Claim C12. `parseTorrentFile_` fails exactly when the name is shorter
than the suffix, or does not end with the suffix, or libtorrent rejects the
file; libtorrent is called exactly for the names that end with the suffix, the
bare suffix included; and a successful result carries the name unchanged,
together with what libtorrent returned for it. -/
theorem parseTorrentFile_screening (ext : String) (ti : String → Option torrent_info)
    (f : String) :
    (parseTorrentFile_ ext ti f = none ↔
      f.length < ext.length ∨ (¬ ∃ p : String, f = p ++ ext) ∨ ti f = none) ∧
    (parseTorrentFileEvents ext f = [Event.parse f] ↔ ∃ p : String, f = p ++ ext) ∧
    ((¬ ∃ p : String, f = p ++ ext) → parseTorrentFileEvents ext f = []) ∧
    parseTorrentFileEvents ext ext = [Event.parse ext] ∧
    parseTorrentFile_ ext ti ext =
      (ti ext).map (fun file_info => { filename := ext, torrent_info := file_info }) ∧
    (∀ lf, parseTorrentFile_ ext ti f = some lf →
      lf.filename = f ∧ ti f = some lf.torrent_info) := by
  have hself : endsWithExtension ext ext = true :=
    (endsWithExtension_iff ext ext).mpr ⟨"", by simp⟩
  refine ⟨?_, ?_, ?_, ?_, ?_, ?_⟩
  · rw [parseTorrentFile_eq]
    by_cases hs : endsWithExtension ext f = true
    · have hp := (endsWithExtension_iff ext f).mp hs
      have hlen : ¬ f.length < ext.length := ((screen_iff ext f).mpr hp).1
      simp [hs, hp, hlen]
    · have hp : ¬ ∃ p : String, f = p ++ ext := fun h => hs ((endsWithExtension_iff ext f).mpr h)
      simp [hs, hp]
  · rw [← endsWithExtension_iff]
    unfold parseTorrentFileEvents
    cases endsWithExtension ext f <;> simp
  · intro hp
    have hs : endsWithExtension ext f = false := by
      rw [Bool.eq_false_iff]
      exact fun h => hp ((endsWithExtension_iff ext f).mp h)
    simp [parseTorrentFileEvents, hs]
  · simp [parseTorrentFileEvents, hself]
  · rw [parseTorrentFile_eq]; simp [hself]
  · intro lf hlf
    rw [parseTorrentFile_eq] at hlf
    by_cases hs : endsWithExtension ext f = true
    · cases hti : ti f with
      | none => simp [hs, hti] at hlf
      | some file_info =>
        simp only [hs, hti, if_true, Option.map_some', Option.some.injEq] at hlf
        subst hlf
        exact ⟨rfl, rfl⟩
    · simp [hs] at hlf

theorem parseTorrentFile_screening_witness :
    (parseTorrentFile_ ".torrent" parseAB "a.torrent" =
        some { filename := "a.torrent", torrent_info := { info_hash := 1 } } ∧
      parseTorrentFile_ ".torrent" parseAB "a.txt" = none ∧
      parseTorrentFile_ ".torrent" parseAB "rent" = none ∧
      parseTorrentFile_ ".torrent" parseAB "c.torrent" = none ∧
      parseTorrentFileEvents ".torrent" "c.torrent" = [Event.parse "c.torrent"] ∧
      parseTorrentFileEvents ".torrent" "a.txt" = []) ∧
    ("a.torrent" : String).length = 9 ∧
    parseAB "a.torrent" = some { info_hash := 1 } :=
  ⟨⟨by decide, by decide, by decide, by decide, by decide, by decide⟩,
    by decide,
    ((parseTorrentFile_screening ".torrent" parseAB "a.torrent").2.2.2.2.2
      { filename := "a.torrent", torrent_info := { info_hash := 1 } } (by decide)).2⟩

/-! ## The scan of `updateLocalFiles_` -/

theorem scanFiles_eq_filterMap (ext : String) (ti : String → Option torrent_info)
    (files : List String) :
    scanFiles ext ti files = files.filterMap (parseTorrentFile_ ext ti) := by
  induction files with
  | nil => rfl
  | cons f rest ih =>
    cases h : parseTorrentFile_ ext ti f <;> simp [scanFiles, List.filterMap_cons, h, ih]

theorem updateLocalFiles_torrents (env : Env) (files : List String)
    (ti : String → Option torrent_info) (s : Torrents) :
    (updateLocalFiles_ env files ti s).torrents_ =
      (populate env.clk (scanFiles env.TORRENT_FILE_EXTENSION ti files)
        (s.torrents_, s.clockReads)).1 := rfl

/-- Claim C13. The files that `updateLocalFiles_` merges are exactly the
files of the listing whose parse succeeded, in listing order; and a file whose
parse fails can be taken out of the listing, wherever it stands, without
changing the registry that results. -/
theorem scan_failure_isolation (env : Env) (files : List String)
    (ti : String → Option torrent_info) (s : Torrents) :
    scanFiles env.TORRENT_FILE_EXTENSION ti files =
        files.filterMap (parseTorrentFile_ env.TORRENT_FILE_EXTENSION ti) ∧
    (updateLocalFiles_ env files ti s).torrents_ =
        (populate env.clk (files.filterMap (parseTorrentFile_ env.TORRENT_FILE_EXTENSION ti))
          (s.torrents_, s.clockReads)).1 ∧
    (∀ pre bad post, files = pre ++ bad :: post →
      parseTorrentFile_ env.TORRENT_FILE_EXTENSION ti bad = none →
      scanFiles env.TORRENT_FILE_EXTENSION ti files =
          scanFiles env.TORRENT_FILE_EXTENSION ti pre ++
            scanFiles env.TORRENT_FILE_EXTENSION ti post ∧
        (updateLocalFiles_ env files ti s).torrents_ =
          (updateLocalFiles_ env (pre ++ post) ti s).torrents_) := by
  refine ⟨scanFiles_eq_filterMap _ _ _, ?_, ?_⟩
  · rw [updateLocalFiles_torrents, scanFiles_eq_filterMap]
  · intro pre bad post hfiles hbad
    have hscan : scanFiles env.TORRENT_FILE_EXTENSION ti files =
        scanFiles env.TORRENT_FILE_EXTENSION ti (pre ++ post) := by
      rw [hfiles]
      simp [scanFiles_eq_filterMap, List.filterMap_append, List.filterMap_cons, hbad]
    constructor
    · rw [hscan]
      simp [scanFiles_eq_filterMap, List.filterMap_append]
    · rw [updateLocalFiles_torrents, updateLocalFiles_torrents, hscan]

theorem scan_failure_isolation_witness :
    parseTorrentFile_ env0.TORRENT_FILE_EXTENSION parseAB "notes.txt" = none ∧
    scanFiles env0.TORRENT_FILE_EXTENSION parseAB ["a.torrent", "notes.txt", "b.torrent"] =
      [{ filename := "a.torrent", torrent_info := { info_hash := 1 } },
       { filename := "b.torrent", torrent_info := { info_hash := 2 } }] ∧
    (scanFiles env0.TORRENT_FILE_EXTENSION parseAB ["a.torrent", "notes.txt", "b.torrent"] =
        scanFiles env0.TORRENT_FILE_EXTENSION parseAB ["a.torrent"] ++
          scanFiles env0.TORRENT_FILE_EXTENSION parseAB ["b.torrent"] ∧
      (updateLocalFiles_ env0 ["a.torrent", "notes.txt", "b.torrent"] parseAB
          Torrents.initial).torrents_ =
        (updateLocalFiles_ env0 (["a.torrent"] ++ ["b.torrent"]) parseAB
          Torrents.initial).torrents_) :=
  ⟨by decide, by decide,
    (scan_failure_isolation env0 ["a.torrent", "notes.txt", "b.torrent"] parseAB
      Torrents.initial).2.2 ["a.torrent"] "notes.txt" ["b.torrent"] rfl (by decide)⟩

/-! ## `lastCheckedLuna_` -/

/-- The counterexample to C14: the command exits with code 0 and prints
nothing; `lastCheckedLuna_` keeps its old value 0 although the clock reads
100, and no clock reading is taken. -/
theorem lastCheckedLuna_not_advanced_on_empty_output :
    (updateLunaFiles_ env0 { rc := 0, out := "", err := "" } Torrents.initial).lastCheckedLuna_ =
        Torrents.initial.lastCheckedLuna_ ∧
      (updateLunaFiles_ env0 { rc := 0, out := "", err := "" } Torrents.initial).clockReads =
        Torrents.initial.clockReads ∧
      ¬ ((updateLunaFiles_ env0 { rc := 0, out := "", err := "" }
          Torrents.initial).lastCheckedLuna_ = env0.clk Torrents.initial.clockReads) := by
  decide

/-- Claim C14, amended. `updateLunaFiles_` sets `lastCheckedLuna_` to the
clock reading it takes when the command exits with code 0 and its output is
not empty; it leaves `lastCheckedLuna_` unchanged when the command exits
nonzero, and also when the output is empty. -/
theorem lastCheckedLuna_update (env : Env) (r : Runner) (s : Torrents) :
    (r.rc = 0 → r.out ≠ "" →
      (updateLunaFiles_ env r s).lastCheckedLuna_ = env.clk s.clockReads) ∧
    (r.rc ≠ 0 → (updateLunaFiles_ env r s).lastCheckedLuna_ = s.lastCheckedLuna_) ∧
    (r.out = "" → (updateLunaFiles_ env r s).lastCheckedLuna_ = s.lastCheckedLuna_) := by
  refine ⟨?_, ?_, ?_⟩
  · intro hrc hout
    simp [updateLunaFiles_, hrc, hout, reconcile]
  · intro hrc
    simp [updateLunaFiles_, hrc]
  · intro hout
    by_cases hrc : r.rc = 0
    · simp [updateLunaFiles_, hrc, hout]
    · simp [updateLunaFiles_, hrc]

theorem lastCheckedLuna_update_witness :
    (updateLunaFiles_ env0 { rc := 0, out := "a\n", err := "" }
        Torrents.initial).lastCheckedLuna_ = env0.clk 0 ∧
    (updateLunaFiles_ env0 { rc := 2, out := "a\n", err := "" }
        Torrents.initial).lastCheckedLuna_ = 0 ∧
    (updateLunaFiles_ env0 { rc := 0, out := "", err := "" }
        Torrents.initial).lastCheckedLuna_ = 0 :=
  ⟨(lastCheckedLuna_update env0 { rc := 0, out := "a\n", err := "" } Torrents.initial).1
      rfl (by decide),
    (lastCheckedLuna_update env0 { rc := 2, out := "a\n", err := "" } Torrents.initial).2.1
      (by decide),
    (lastCheckedLuna_update env0 { rc := 0, out := "", err := "" } Torrents.initial).2.2 rfl⟩

/-! ## Frame of the reconciliation step and of the seeding phase -/

theorem reconcile_mapKeys (env : Env) (lines : List String) (s : Torrents) :
    mapKeys (reconcile env lines s).torrents_ = mapKeys s.torrents_ :=
  mapKeys_forall₂ (reconcile_forall₂ env lines s)

/-- Claim C17. The reconciliation step of `updateLunaFiles_` keeps the keys of
the registry and, for every record, its `isSeeding` flag and its
`torrentFile`; a record whose file name is not expected keeps its `timeStamp`
and ends with `isInLuna` false; so a record that is seeding and is no longer
expected ends with `isInLuna` false and `isSeeding` true. -/
theorem reconcile_frame (env : Env) (lines : List String) (s : Torrents) (k : sha1_hash)
    (r : lunaTorrent_t) (h : mapFind s.torrents_ k = some r) :
    mapKeys (reconcile env lines s).torrents_ = mapKeys s.torrents_ ∧
    ∃ r', mapFind (reconcile env lines s).torrents_ k = some r' ∧
      r'.isSeeding = r.isSeeding ∧ r'.torrentFile = r.torrentFile ∧
      (r.torrentFile ∉ lines.map (fun line => line ++ env.TORRENT_FILE_EXTENSION) →
        r'.timeStamp = r.timeStamp ∧ r'.isInLuna = false) ∧
      (r.isSeeding = true →
        r.torrentFile ∉ lines.map (fun line => line ++ env.TORRENT_FILE_EXTENSION) →
        r'.isInLuna = false ∧ r'.isSeeding = true) := by
  obtain ⟨r', hf, h1, h2, h3, _, h5⟩ := mapFind_forall₂ (reconcile_forall₂ env lines s) k r h
  have hmem := mem_mapKeys_buildLunaConfiguredTorrents env.TORRENT_FILE_EXTENSION lines []
    r.torrentFile
  have hnot : r.torrentFile ∉ lines.map (fun line => line ++ env.TORRENT_FILE_EXTENSION) →
      r.torrentFile ∉ mapKeys
        (buildLunaConfiguredTorrents env.TORRENT_FILE_EXTENSION lines []) := by
    intro hn hk
    rcases hmem.mp hk with hk' | hk'
    · exact hn hk'
    · simp [mapKeys] at hk'
  have hfalse : r.torrentFile ∉ lines.map (fun line => line ++ env.TORRENT_FILE_EXTENSION) →
      r'.isInLuna = false := by
    intro hn
    rw [Bool.eq_false_iff]
    exact fun hl => hnot hn (h3.mp hl)
  refine ⟨reconcile_mapKeys env lines s, r', hf, h2, h1, ?_, ?_⟩
  · intro hn
    exact ⟨h5 (hnot hn), hfalse hn⟩
  · intro hs hn
    exact ⟨hfalse hn, by rw [h2]; exact hs⟩

theorem reconcile_frame_witness :
    mapFind regSeed 3 = some { torrentFile := "c.torrent", timeStamp := 5,
                               isInLuna := true, isSeeding := true } ∧
    "c.torrent" ∉ ["a"].map (fun line => line ++ env0.TORRENT_FILE_EXTENSION) ∧
    mapFind (reconcile env0 ["a"] { Torrents.initial with torrents_ := regSeed }).torrents_ 3 =
      some { torrentFile := "c.torrent", timeStamp := 5, isInLuna := false, isSeeding := true } ∧
    (mapKeys (reconcile env0 ["a"] { Torrents.initial with torrents_ := regSeed }).torrents_ =
        mapKeys regSeed ∧
      ∃ r', mapFind (reconcile env0 ["a"]
          { Torrents.initial with torrents_ := regSeed }).torrents_ 3 = some r' ∧
        r'.isSeeding = true ∧ r'.torrentFile = "c.torrent" ∧
        ("c.torrent" ∉ ["a"].map (fun line => line ++ env0.TORRENT_FILE_EXTENSION) →
          r'.timeStamp = 5 ∧ r'.isInLuna = false) ∧
        (true = true →
          "c.torrent" ∉ ["a"].map (fun line => line ++ env0.TORRENT_FILE_EXTENSION) →
          r'.isInLuna = false ∧ r'.isSeeding = true)) :=
  ⟨by decide, by decide, by decide,
    reconcile_frame env0 ["a"] { Torrents.initial with torrents_ := regSeed } 3
      { torrentFile := "c.torrent", timeStamp := 5, isInLuna := true, isSeeding := true }
      (by decide)⟩

/-- Claim C19. If the descriptor of every candidate re-parses, then after
`seedOSImages_` every registered record is seeding, so that no candidate is
left; and `seedOSImages_` keeps the keys of the registry and the `isInLuna`,
`timeStamp` and `torrentFile` of every record. -/
theorem seedOSImages_closes_gap (ti : String → Option torrent_info) (s : Torrents)
    (hall : ∀ k r, (k, r) ∈ s.torrents_ → r.isInLuna = true → r.isSeeding = false →
      (ti r.torrentFile).isSome = true) :
    (∀ k r, (k, r) ∈ (seedOSImages_ ti s).torrents_ → r.isInLuna = true →
      r.isSeeding = true) ∧
    (seedOSImages_ ti s).torrents_.filter (fun e => isCandidate e.2) = [] ∧
    mapKeys (seedOSImages_ ti s).torrents_ = mapKeys s.torrents_ ∧
    (∀ k r, mapFind s.torrents_ k = some r →
      ∃ r', mapFind (seedOSImages_ ti s).torrents_ k = some r' ∧
        r'.isInLuna = r.isInLuna ∧ r'.timeStamp = r.timeStamp ∧
        r'.torrentFile = r.torrentFile) := by
  have hclosed : ∀ k r, (k, r) ∈ (seedOSImages_ ti s).torrents_ → r.isInLuna = true →
      r.isSeeding = true := by
    intro k r hmem hl
    rw [seedOSImages_torrents] at hmem
    obtain ⟨e, he, heq⟩ := List.mem_map.mp hmem
    obtain ⟨k0, r0⟩ := e
    simp only [Prod.mk.injEq] at heq
    obtain ⟨_, hr⟩ := heq
    subst hr
    cases hs : r0.isSeeding with
    | true => simp [seedRecord, isCandidate, hs]
    | false =>
      have hl0 : r0.isInLuna = true := by
        unfold seedRecord at hl
        split at hl <;> simpa using hl
      have hp := hall k0 r0 he hl0 hs
      simp [seedRecord, isCandidate, hs, hl0, hp]
  refine ⟨hclosed, ?_, ?_, ?_⟩
  · rw [List.filter_eq_nil_iff]
    intro e he hc
    obtain ⟨k, r⟩ := e
    simp only [isCandidate, Bool.and_eq_true, Bool.not_eq_true'] at hc
    have := hclosed k r he hc.1
    rw [hc.2] at this
    cases this
  · rw [seedOSImages_torrents, mapKeys_map_snd]
  · intro k r hf
    refine ⟨seedRecord ti r, ?_, ?_⟩
    · rw [seedOSImages_torrents, mapFind_map_snd, hf]; rfl
    · unfold seedRecord
      split <;> simp

theorem seedOSImages_closes_gap_witness :
    (seedOSImages_ parseAB { Torrents.initial with torrents_ := regSeed }).torrents_ =
      [(1, { torrentFile := "a.torrent", timeStamp := 5, isInLuna := true, isSeeding := true }),
       (2, { torrentFile := "b.torrent", timeStamp := 5, isInLuna := true, isSeeding := true }),
       (3, { torrentFile := "c.torrent", timeStamp := 5, isInLuna := true, isSeeding := true }),
       (4, { torrentFile := "d.torrent", timeStamp := 5, isInLuna := false, isSeeding := false })] ∧
    (seedOSImages_ parseAB { Torrents.initial with torrents_ := regSeed }).torrents_.filter
      (fun e => isCandidate e.2) = [] :=
  ⟨by decide,
    (seedOSImages_closes_gap parseAB { Torrents.initial with torrents_ := regSeed }
      (by
        intro k r hmem hl hs
        simp only [regSeed, List.mem_cons, Prod.mk.injEq, List.mem_singleton] at hmem
        have hnil : (k, r) ∉ ([] : List (sha1_hash × lunaTorrent_t)) := List.not_mem_nil _
        rcases hmem with ⟨_, rfl⟩ | ⟨_, rfl⟩ | ⟨_, rfl⟩ | ⟨_, rfl⟩ | hmem
        · decide
        · decide
        · simp at hs
        · simp at hl
        · exact absurd hmem hnil)).2.1⟩

/-! ## Several files with one identity -/

theorem populate_append (clk : Nat → timeStamp_t) (a b : List localFile_t) :
    ∀ st : torrentsList_t × Nat, populate clk (a ++ b) st = populate clk b (populate clk a st) := by
  induction a with
  | nil => intro st; simp [populate]
  | cons d rest ih =>
    intro st
    obtain ⟨m, n⟩ := st
    by_cases hc : mapCount m d.torrent_info.info_hash ≠ 0
    · rw [List.cons_append, populate_cons_present clk d _ m n hc,
        populate_cons_present clk d _ m n hc]
      exact ih _
    · rw [List.cons_append, populate_cons_absent clk d _ m n hc,
        populate_cons_absent clk d _ m n hc]
      exact ih _

theorem count_mapKeys_mapInsert {κ β : Type} [DecidableEq κ] [LT κ]
    [DecidableRel (fun a b : κ => a < b)] (h : κ) (v : β) (m : List (κ × β)) (k : κ)
    (hnot : h ∉ mapKeys m) :
    (mapKeys (mapInsert h v m)).count k = (if h = k then 1 else 0) + (mapKeys m).count k := by
  rw [(mapKeys_mapInsert_perm h v m hnot).count_eq, List.count_cons]
  by_cases hk : h = k
  · simp [hk, Nat.add_comm]
  · simp [hk]

/-- The merge does not change how often a key of the registry occurs. -/
theorem count_mapKeys_populate_old (clk : Nat → timeStamp_t) (lfs : List localFile_t)
    (k : sha1_hash) :
    ∀ (m : torrentsList_t) (n : Nat), k ∈ mapKeys m →
      (mapKeys (populate clk lfs (m, n)).1).count k = (mapKeys m).count k := by
  induction lfs with
  | nil => intro m n _; simp [populate]
  | cons d rest ih =>
    intro m n hk
    by_cases hc : mapCount m d.torrent_info.info_hash ≠ 0
    · rw [populate_cons_present clk d rest m n hc]
      exact ih m n hk
    · rw [populate_cons_absent clk d rest m n hc]
      have hnot : d.torrent_info.info_hash ∉ mapKeys m :=
        (mapCount_eq_zero_iff _ _).mp (not_not.mp hc)
      have hne : ¬ d.torrent_info.info_hash = k := fun e => hnot (e ▸ hk)
      rw [ih _ (n + 1) ((mem_mapKeys_mapInsert _ _ _ _).mpr (Or.inr hk)),
        count_mapKeys_mapInsert _ _ _ _ hnot]
      simp [hne]

/-- An identity that was absent and is merged occurs once afterwards. -/
theorem count_mapKeys_populate_new (clk : Nat → timeStamp_t) (lfs : List localFile_t)
    (k : sha1_hash) :
    ∀ (m : torrentsList_t) (n : Nat), k ∉ mapKeys m →
      (∃ lf ∈ lfs, lf.torrent_info.info_hash = k) →
      (mapKeys (populate clk lfs (m, n)).1).count k = 1 := by
  induction lfs with
  | nil => intro m n _ h; simp at h
  | cons d rest ih =>
    intro m n hk hex
    by_cases hc : mapCount m d.torrent_info.info_hash ≠ 0
    · rw [populate_cons_present clk d rest m n hc]
      have hin : d.torrent_info.info_hash ∈ mapKeys m := (mapCount_ne_zero_iff _ _).mp hc
      have hne : ¬ d.torrent_info.info_hash = k := fun e => hk (e ▸ hin)
      apply ih m n hk
      obtain ⟨lf, hlf, hh⟩ := hex
      rcases List.mem_cons.mp hlf with h1 | h1
      · exact absurd (h1 ▸ hh) hne
      · exact ⟨lf, h1, hh⟩
    · rw [populate_cons_absent clk d rest m n hc]
      have hnot : d.torrent_info.info_hash ∉ mapKeys m :=
        (mapCount_eq_zero_iff _ _).mp (not_not.mp hc)
      by_cases hd : d.torrent_info.info_hash = k
      · rw [count_mapKeys_populate_old clk rest k _ (n + 1)
          ((mem_mapKeys_mapInsert _ _ _ _).mpr (Or.inl hd.symm)),
          count_mapKeys_mapInsert _ _ _ _ hnot]
        simp [hd, List.count_eq_zero_of_not_mem hk]
      · apply ih
        · rw [mem_mapKeys_mapInsert]
          rintro (h | h)
          · exact hd h.symm
          · exact hk h
        · obtain ⟨lf, hlf, hh⟩ := hex
          rcases List.mem_cons.mp hlf with h1 | h1
          · exact absurd (h1 ▸ hh) hd
          · exact ⟨lf, h1, hh⟩

/-- A descriptor whose identity is that of an earlier descriptor of the list
can be taken out of the list without changing the result of the merge. -/
theorem populate_later_duplicate (clk : Nat → timeStamp_t) (pre post : List localFile_t)
    (d : localFile_t) (m : torrentsList_t) (n : Nat)
    (hdup : ∃ d' ∈ pre, d'.torrent_info.info_hash = d.torrent_info.info_hash) :
    populate clk (pre ++ d :: post) (m, n) = populate clk (pre ++ post) (m, n) := by
  rw [populate_append, populate_append]
  cases hp : populate clk pre (m, n) with
  | mk m1 n1 =>
    have hin : d.torrent_info.info_hash ∈ mapKeys m1 := by
      have := (mem_mapKeys_populate clk pre m n d.torrent_info.info_hash).mpr (Or.inr hdup)
      rw [hp] at this
      exact this
    exact populate_cons_present clk d post m1 n1 ((mapCount_ne_zero_iff _ _).mpr hin)

/-- Claim C18. When the files parsed in one scan of `updateLocalFiles_`
include files with an identity `k` that is not in the registry, and `lf` is the
first of them in listing order, then afterwards `k` is stored once, with the
file name of `lf`, the clock reading taken at its insertion and both flags
false; and a later file with identity `k` can be taken out of the parsed
files without changing the registry that results. -/
theorem first_file_wins (env : Env) (files : List String) (ti : String → Option torrent_info)
    (s : Torrents) (k : sha1_hash) (lf : localFile_t)
    (habs : mapFind s.torrents_ k = none)
    (hfirst : (scanFiles env.TORRENT_FILE_EXTENSION ti files).find?
      (fun d => decide (d.torrent_info.info_hash = k)) = some lf) :
    (∃ j, s.clockReads ≤ j ∧ j < (updateLocalFiles_ env files ti s).clockReads ∧
      mapFind (updateLocalFiles_ env files ti s).torrents_ k =
        some { torrentFile := lf.filename, timeStamp := env.clk j,
               isInLuna := false, isSeeding := false }) ∧
    (mapKeys (updateLocalFiles_ env files ti s).torrents_).count k = 1 ∧
    (∀ pre d post, scanFiles env.TORRENT_FILE_EXTENSION ti files = pre ++ d :: post →
      d.torrent_info.info_hash = k →
      (∃ d' ∈ pre, d'.torrent_info.info_hash = k) →
      (updateLocalFiles_ env files ti s).torrents_ =
        (populate env.clk (pre ++ post) (s.torrents_, s.clockReads)).1) := by
  have hk : k ∉ mapKeys s.torrents_ := (mapFind_eq_none_iff _ _).mp habs
  refine ⟨?_, ?_, ?_⟩
  · exact populate_mapFind_new env.clk _ s.torrents_ s.clockReads k lf hk hfirst
  · rw [updateLocalFiles_torrents]
    apply count_mapKeys_populate_new _ _ _ _ _ hk
    have hmem := List.mem_of_find?_eq_some hfirst
    have hp := List.find?_some hfirst
    exact ⟨lf, hmem, of_decide_eq_true hp⟩
  · intro pre d post hscan hd hdup
    rw [updateLocalFiles_torrents, hscan]
    rw [populate_later_duplicate env.clk pre post d s.torrents_ s.clockReads]
    obtain ⟨d', hd', hh⟩ := hdup
    exact ⟨d', hd', hh.trans hd.symm⟩

theorem first_file_wins_witness :
    mapFind regAB 9 = none ∧
    (scanFiles env0.TORRENT_FILE_EXTENSION (fun _ => some { info_hash := 9 })
      ["x.torrent", "y.torrent"]).find? (fun d => decide (d.torrent_info.info_hash = 9)) =
      some { filename := "x.torrent", torrent_info := { info_hash := 9 } } ∧
    (updateLocalFiles_ env0 ["x.torrent", "y.torrent"] (fun _ => some { info_hash := 9 })
        { Torrents.initial with torrents_ := regAB }).torrents_ =
      regAB ++ [(9, { torrentFile := "x.torrent", timeStamp := 100,
                      isInLuna := false, isSeeding := false })] ∧
    (mapKeys (updateLocalFiles_ env0 ["x.torrent", "y.torrent"]
        (fun _ => some { info_hash := 9 })
        { Torrents.initial with torrents_ := regAB }).torrents_).count 9 = 1 :=
  ⟨by decide, by decide, by decide,
    (first_file_wins env0 ["x.torrent", "y.torrent"] (fun _ => some { info_hash := 9 })
      { Torrents.initial with torrents_ := regAB } 9
      { filename := "x.torrent", torrent_info := { info_hash := 9 } }
      (by decide) (by decide)).2.1⟩

/-! ## The registry lock and external I/O -/

theorem lockDiscipline_scanEvents (ext : String) (files : List String) (rest : List Event) :
    lockDiscipline false (scanEvents ext files ++ rest) = lockDiscipline false rest := by
  induction files with
  | nil => rfl
  | cons f fs ih =>
    simp only [scanEvents, parseTorrentFileEvents]
    cases endsWithExtension ext f
    · simpa using ih
    · simpa [lockDiscipline, isExternalIO] using ih

theorem lockDiscipline_reportMissing (held : Bool) (luna : List (String × Bool)) :
    lockDiscipline held (reportMissing luna) = true := by
  induction luna with
  | nil => cases held <;> rfl
  | cons e rest ih =>
    obtain ⟨f, matched⟩ := e
    cases matched <;> simp [reportMissing, lockDiscipline, isExternalIO, ih]

theorem seedLoop_events (ti : String → Option torrent_info) (m : torrentsList_t) :
    ∀ e ∈ (seedLoop ti m).2,
      (∃ k f, e = Event.reparse k f) ∨ ∃ k p, e = Event.async_add_torrent k p := by
  induction m with
  | nil => intro e he; simp [seedLoop] at he
  | cons e1 rest ih =>
    obtain ⟨k, r⟩ := e1
    intro e he
    simp only [seedLoop] at he
    cases hs : r.isSeeding <;> cases hl : r.isInLuna <;> cases ht : ti r.torrentFile <;>
      simp only [hs, hl, ht, Bool.not_true, Bool.not_false, if_true, if_false,
        Bool.false_eq_true, List.mem_cons] at he
    all_goals first
      | exact ih e he
      | (rcases he with he | he
         · exact Or.inl ⟨_, _, he⟩
         · exact ih e he)
      | (rcases he with he | he | he
         · exact Or.inl ⟨_, _, he⟩
         · exact Or.inr ⟨_, _, he⟩
         · exact ih e he)

theorem seedLoop_events_eq_nil (ti : String → Option torrent_info) (m : torrentsList_t) :
    (seedLoop ti m).2 = [] ↔ m.filter (fun e => isCandidate e.2) = [] := by
  induction m with
  | nil => simp [seedLoop]
  | cons e1 rest ih =>
    obtain ⟨k, r⟩ := e1
    simp only [seedLoop]
    cases hs : r.isSeeding <;> cases hl : r.isInLuna <;> cases ht : ti r.torrentFile <;>
      simp [isCandidate, hs, hl, ht, ih, List.filter_cons]

theorem lockDiscipline_held_io (ev : List Event)
    (hio : ∀ e ∈ ev, (∃ k f, e = Event.reparse k f) ∨ ∃ k p, e = Event.async_add_torrent k p) :
    lockDiscipline true (ev ++ [Event.unlock]) = true ↔ ev = [] := by
  cases ev with
  | nil => simp [lockDiscipline]
  | cons e rest =>
    rcases hio e (List.mem_cons_self _ _) with ⟨k, f, he⟩ | ⟨k, p, he⟩ <;>
      simp [he, lockDiscipline, isExternalIO]

/-- The counterexample to C16: `seedOSImages_` re-parses and submits between
the acquire and the release of the lock, so the trace of the four phases of
the sample cycle breaks the discipline. -/
theorem seedOSImages_io_under_lock :
    (seedOSImages_ tiSample { Torrents.initial with torrents_ := regSeed }).trace =
        [Event.lock, Event.reparse 1 "a.torrent",
         Event.async_add_torrent 1 { info_hash := 1 },
         Event.reparse 2 "b.torrent", Event.unlock] ∧
      ¬ (lockDiscipline false (updateBody env0 cycleA Torrents.initial).trace = true) := by
  decide

/-- Claim C16, amended. The events of `updateLocalFiles_` and those of
`updateLunaFiles_` keep the discipline: no subprocess execution, descriptor
parse or engine submission between an acquire of the lock and its release.
`seedOSImages_` acquires the lock, then re-parses and submits for its
candidates, then releases the lock: all its re-parses and submissions are made
while the lock is held, and its events keep the discipline exactly when the
registry has no candidate. -/
theorem lock_discipline (env : Env) (inp : CycleInput) (s : Torrents) :
    (∃ ev, (updateLocalFiles_ env inp.files inp.scanParse s).trace = s.trace ++ ev ∧
      lockDiscipline false ev = true) ∧
    (∃ ev, (updateLunaFiles_ env inp.runner s).trace = s.trace ++ ev ∧
      lockDiscipline false ev = true) ∧
    (∃ ev, (seedOSImages_ inp.seedParse s).trace =
        s.trace ++ Event.lock :: (ev ++ [Event.unlock]) ∧
      (∀ e ∈ ev, (∃ k f, e = Event.reparse k f) ∨ ∃ k p, e = Event.async_add_torrent k p) ∧
      reparsedKeys ev = mapKeys (s.torrents_.filter (fun e => isCandidate e.2)) ∧
      (lockDiscipline false (Event.lock :: (ev ++ [Event.unlock])) = true ↔
        s.torrents_.filter (fun e => isCandidate e.2) = [])) := by
  refine ⟨?_, ?_, ?_⟩
  · refine ⟨Event.readDirectory :: (scanEvents env.TORRENT_FILE_EXTENSION inp.files ++
      [Event.lock, Event.unlock]), by simp [updateLocalFiles_], ?_⟩
    show (!(false && isExternalIO Event.readDirectory) &&
      lockDiscipline false (scanEvents env.TORRENT_FILE_EXTENSION inp.files ++
        [Event.lock, Event.unlock])) = true
    rw [lockDiscipline_scanEvents]
    rfl
  · by_cases hrc : inp.runner.rc ≠ 0
    · exact ⟨[Event.exec], by simp [updateLunaFiles_, hrc], rfl⟩
    · by_cases hout : inp.runner.out = ""
      · exact ⟨[Event.exec], by simp [updateLunaFiles_, hrc, hout], rfl⟩
      · refine ⟨Event.exec :: Event.lock :: Event.unlock :: reportMissing
          (reconcileLoop env.clk s.torrents_
            (buildLunaConfiguredTorrents env.TORRENT_FILE_EXTENSION
              (env.splitString inp.runner.out) []) (s.clockReads + 1)).2.1, ?_, ?_⟩
        · simp [updateLunaFiles_, hrc, hout, reconcile]
        · show (!(false && isExternalIO Event.exec) &&
            lockDiscipline false (reportMissing _)) = true
          rw [lockDiscipline_reportMissing]
          rfl
  · refine ⟨(seedLoop inp.seedParse s.torrents_).2, (seedOSImages_trace _ s).1,
      seedLoop_events _ _, seedLoop_reparsedKeys _ _, ?_⟩
    show lockDiscipline true ((seedLoop inp.seedParse s.torrents_).2 ++ [Event.unlock]) = true ↔ _
    rw [lockDiscipline_held_io _ (seedLoop_events _ _), seedLoop_events_eq_nil]

theorem lock_discipline_witness :
    lockDiscipline false
        (updateLunaFiles_ env0 cycleA.runner
          (updateLocalFiles_ env0 cycleA.files cycleA.scanParse Torrents.initial)).trace = true ∧
    (∃ ev, (updateLocalFiles_ env0 cycleA.files cycleA.scanParse Torrents.initial).trace =
        [] ++ ev ∧ lockDiscipline false ev = true) :=
  ⟨by decide, (lock_discipline env0 cycleA Torrents.initial).1⟩

/-! ## The two-cycle scenario -/

theorem seedOSImages_find (ti : String → Option torrent_info) (s : Torrents) (k : sha1_hash) :
    mapFind (seedOSImages_ ti s).torrents_ k = (mapFind s.torrents_ k).map (seedRecord ti) := by
  rw [seedOSImages_torrents, mapFind_map_snd]

theorem seedOSImages_submittedKeys (ti : String → Option torrent_info) (s : Torrents) :
    submittedKeys (seedOSImages_ ti s).trace =
      submittedKeys s.trace ++ mapKeys (s.torrents_.filter
        (fun e => isCandidate e.2 && (ti e.2.torrentFile).isSome)) := by
  obtain ⟨htr, hnew⟩ := seedOSImages_trace ti s
  rw [htr, submittedKeys_append, hnew]

theorem populate_no_candidate (clk : Nat → timeStamp_t) (lfs : List localFile_t) :
    ∀ (m : torrentsList_t) (n : Nat), (∀ e ∈ m, isCandidate e.2 = false) →
      ∀ e ∈ (populate clk lfs (m, n)).1, isCandidate e.2 = false := by
  induction lfs with
  | nil => intro m n h; simpa [populate] using h
  | cons d rest ih =>
    intro m n h
    by_cases hc : mapCount m d.torrent_info.info_hash ≠ 0
    · rw [populate_cons_present clk d rest m n hc]
      exact ih m n h
    · rw [populate_cons_absent clk d rest m n hc]
      apply ih
      intro e he
      rcases mem_mapInsert _ _ _ e he with h1 | h1
      · rw [h1]; rfl
      · exact h e h1

/-- The four phases of the body of `update`, run with a failing authority
command on a registry without candidates, keep every record as it is and
submit nothing. -/
theorem updateBody_after_failure (env : Env) (inp : CycleInput) (s : Torrents)
    (hrc : inp.runner.rc ≠ 0) (hnc : ∀ e ∈ s.torrents_, isCandidate e.2 = false) :
    (∀ k r, mapFind s.torrents_ k = some r → mapFind (updateBody env inp s).torrents_ k = some r) ∧
      submittedKeys (updateBody env inp s).trace = submittedKeys s.trace := by
  have hluna : (updateLunaFiles_ env inp.runner
      (updateLocalFiles_ env inp.files inp.scanParse s)).torrents_ =
      (updateLocalFiles_ env inp.files inp.scanParse s).torrents_ := by
    simp [updateLunaFiles_, hrc]
  have hnc' : ∀ e ∈ (updateLunaFiles_ env inp.runner
      (updateLocalFiles_ env inp.files inp.scanParse s)).torrents_, isCandidate e.2 = false := by
    rw [hluna, updateLocalFiles_torrents]
    exact populate_no_candidate _ _ _ _ hnc
  constructor
  · intro k r hf
    show mapFind (seedOSImages_ inp.seedParse _).torrents_ k = some r
    rw [seedOSImages_find, hluna, updateLocalFiles_keeps env inp.files inp.scanParse s k r hf]
    have : isCandidate r = false := hnc (k, r) (mapFind_mem _ _ _ hf)
    simp [seedRecord, this]
  · show submittedKeys (seedOSImages_ inp.seedParse _).trace = _
    rw [seedOSImages_submittedKeys, updateLunaFiles_submittedKeys,
      updateLocalFiles_submittedKeys]
    have hnil : (updateLunaFiles_ env inp.runner
        (updateLocalFiles_ env inp.files inp.scanParse s)).torrents_.filter
        (fun e => isCandidate e.2 && (inp.seedParse e.2.torrentFile).isSome) = [] := by
      rw [List.filter_eq_nil_iff]
      intro e he
      simp [hnc' e he]
    rw [hnil]
    simp [mapKeys]

end Luna
